import Mathlib

/-!
Verification of the image ingestion/transformation/caching pipeline of a
document-to-HTML compiler (`src/image_processor.rs`).

The Rust functions are shallowly embedded:
* `f64` arithmetic is modelled by exact rational arithmetic (`ℚ`); `f64::round`
  (round half away from zero) is `fround`;
* machine integers are `ℕ`/`ℤ` with explicit `% 2^w` at the casts that matter;
* byte buffers (`Vec<u8>`, `&mut [u8]`) are `List ℕ`;
* file-system state is an explicit association list from file names (character
  lists) to byte contents, threaded through the functions;
* the concurrent resize dispatcher is a step relation on its counter state.
-/

namespace Dllup

/-- Rust `f64::round`: round half away from zero, as an exact operation on `ℚ`. -/
def fround (q : ℚ) : ℤ :=
  if 0 ≤ q then ⌊q + 1 / 2⌋ else ⌈q - 1 / 2⌉

/-- `compute_display_dimensions(width, height, layout_limit)` from
`src/image_processor.rs`.  The `f64` inputs are rationals; the final
`.round().max(1.0) as u32` casts are `fround`, `max 1`, `Int.toNat`
(the values are integers `≥ 1`, so the cast is exact). -/
def compute_display_dimensions (width height : ℚ) (layout_limit : ℕ) : ℕ × ℕ × Bool :=
  let layout : ℚ := (max layout_limit 1 : ℕ)
  let ow0 := if 0 < width then width else layout
  let oh0 := if 0 < height then height else layout
  let original_width := if ow0 ≤ 0 then layout else ow0
  let original_height := if oh0 ≤ 0 then layout else oh0
  let ratio := if 0 < original_height then original_width / original_height else 1
  let p : ℚ × ℚ × Bool :=
    if ratio < 1 then
      let max_height := min layout original_height
      (max (max_height * ratio) 1, max_height, false)
    else if 2 ≤ ratio then
      let max_width := layout * 2
      let w := min original_width max_width
      (w, max (w / ratio) 1, true)
    else
      let w := min layout original_width
      (w, max (w / ratio) 1, false)
  ((max (fround p.1) 1).toNat, (max (fround p.2.1) 1).toNat, p.2.2)

/-- The loop body of `target_resize_widths`: fold the sorted, deduplicated size
list into target widths, clamping with `min`, skipping `0` and the original
width, and collapsing a target equal to the last pushed width. -/
def collect_widths (original_width : ℕ) : List ℕ → List ℕ → List ℕ
  | widths, [] => widths
  | widths, size :: rest =>
    let target_width := min size original_width
    if target_width = 0 ∨ target_width = original_width then
      collect_widths original_width widths rest
    else if widths.getLast? = some target_width then
      collect_widths original_width widths rest
    else
      collect_widths original_width (widths ++ [target_width]) rest

/-- `target_resize_widths(&self, original_width, display_width)`.  The
`self.config.sizes` and `self.config.layout_width` fields are passed
explicitly.  Rust `sort_unstable` is a sort by `≤`; `Vec::dedup` (removal of
consecutive duplicates) is `destutter (· ≠ ·)`. -/
def target_resize_widths (sizes : List ℕ) (layout_width original_width display_width : ℕ) :
    List ℕ :=
  let sizes1 := if layout_width ∈ sizes then sizes else sizes ++ [layout_width]
  let sizes2 :=
    if 0 < display_width ∧ display_width ∉ sizes1 then sizes1 ++ [display_width] else sizes1
  let sizes3 := (sizes2.insertionSort (· ≤ ·)).destutter (· ≠ ·)
  collect_widths original_width [] sizes3

/-- Variant height derivation in `process_raster` /
`try_build_processed_from_cache`:
`((target_width as f64 / width as f64) * height as f64).round().max(1.0) as u32`. -/
def variant_height (target_width width height : ℕ) : ℕ :=
  (max (fround ((target_width : ℚ) / (width : ℚ) * (height : ℚ))) 1).toNat

/-- The `(width, height)` pairs of the variant list built by the fresh path of
`process_raster`: plan the target widths from the probed dimensions, derive
each height, then `variants.sort_by_key(|v| v.width)`. -/
def process_raster_variants (sizes : List ℕ) (layout_width width height : ℕ) : List (ℕ × ℕ) :=
  let display_width := (compute_display_dimensions (width : ℚ) (height : ℚ) layout_width).1
  let target_widths := target_resize_widths sizes layout_width width display_width
  let specs := target_widths.map (fun t => (t, variant_height t width height))
  specs.insertionSort (fun a b => a.1 ≤ b.1)

/-- The `(width, height)` pairs of the variant list built by the dimension-cache
fast path `try_build_processed_from_cache` (when every variant file exists):
the same planning computation from the cached dimensions, then
`variants.sort_by_key(|v| v.width)`. -/
def cached_path_variants (sizes : List ℕ) (layout_width width height : ℕ) : List (ℕ × ℕ) :=
  let display_width := (compute_display_dimensions (width : ℚ) (height : ℚ) layout_width).1
  let target_widths := target_resize_widths sizes layout_width width display_width
  let variants := target_widths.map (fun t => (t, variant_height t width height))
  variants.insertionSort (fun a b => a.1 ≤ b.1)

/-! ### Original cache store (`ensure_original_cached`)

File names are modelled as character lists, the cache directory as an
association list from names to byte contents. -/

/-- Decimal digit extraction on explicit fuel (structural recursion, so that
the kernel can evaluate file names). -/
def natDecimalCore : ℕ → ℕ → List Char
  | 0, _ => []
  | fuel + 1, n =>
    if n < 10 then [Nat.digitChar n]
    else natDecimalCore fuel (n / 10) ++ [Nat.digitChar (n % 10)]

/-- Decimal rendering of a `usize` (Rust `format!("{}", counter)`),
most significant digit first; `n` itself bounds the recursion depth. -/
def natDecimal (n : ℕ) : List Char :=
  natDecimalCore (n + 1) n

/-- Split a character list at its last `'.'`: `some (pre, suf)` with
`l = pre ++ '.' :: suf` and no `'.'` in `suf`. -/
def splitLastDot : List Char → Option (List Char × List Char)
  | [] => none
  | c :: cs =>
    match splitLastDot cs with
    | some (pre, suf) => some (c :: pre, suf)
    | none => if c = '.' then some ([], cs) else none

/-- Rust `Path::file_stem` / `Path::extension` for a plain file name: the last
`'.'` at index `≥ 1` separates stem from extension (a leading dot is part of
the stem). -/
def split_stem_ext (name : List Char) : List Char × Option (List Char) :=
  match name with
  | [] => ([], none)
  | c :: cs =>
    match splitLastDot cs with
    | none => (name, none)
    | some (pre, suf) => (c :: pre, some suf)

/-- `numbered_filename(base, counter)`: `"{stem}-{counter}.{ext}"`, or
`"{stem}-{counter}"` when there is no (nonempty) extension; an empty stem
falls back to the whole base name. -/
def numbered_filename (base : List Char) (counter : ℕ) : List Char :=
  let se := split_stem_ext base
  let stem := if se.1 = [] then base else se.1
  match se.2 with
  | some ext =>
      if ext = [] then stem ++ '-' :: natDecimal counter
      else stem ++ '-' :: natDecimal counter ++ '.' :: ext
  | none => stem ++ '-' :: natDecimal counter

/-- The cache directory: file names with their byte contents. -/
structure CacheFS where
  files : List (List Char × List ℕ)
deriving DecidableEq

/-- `fs::read` inside the cache directory (`none` when the file is absent). -/
def CacheFS.read (fs : CacheFS) (name : List Char) : Option (List ℕ) :=
  (fs.files.find? (fun p => p.1 = name)).map (fun p => p.2)

/-- `fs::write` inside the cache directory (create or overwrite). -/
def CacheFS.write (fs : CacheFS) (name : List Char) (bytes : List ℕ) : CacheFS :=
  if fs.files.any (fun p => p.1 = name) then
    ⟨fs.files.map (fun p => if p.1 = name then (name, bytes) else p)⟩
  else ⟨fs.files ++ [(name, bytes)]⟩

/-- The numbered-suffix probe loop of `ensure_original_cached`.  The Rust loop
is unbounded; it is run here on explicit fuel, and
`ensure_original_cached` supplies fuel that provably always suffices
(one more than the number of files in the cache). -/
def probe_numbered (fs : CacheFS) (base : List Char) (bytes : List ℕ) :
    ℕ → ℕ → Option (CacheFS × List Char)
  | 0, _ => none
  | fuel + 1, counter =>
    let candidate_name := numbered_filename base counter
    match fs.read candidate_name with
    | some content =>
        if content = bytes then some (fs, candidate_name)
        else probe_numbered fs base bytes fuel (counter + 1)
    | none => some (fs.write candidate_name bytes, candidate_name)

/-- `ensure_original_cached`: `cached_path_in_cache` is `some p` when the
source's `cached_path` already lies under the cache directory (the early
return); `base_name` is the preferred (or default) file name. -/
def ensure_original_cached (fs : CacheFS) (cached_path_in_cache : Option (List Char))
    (base_name : List Char) (bytes : List ℕ) : Option (CacheFS × List Char) :=
  match cached_path_in_cache with
  | some existing => some (fs, existing)
  | none =>
    match fs.read base_name with
    | none => some (fs.write base_name bytes, base_name)
    | some content =>
      if content = bytes then some (fs, base_name)
      else probe_numbered fs base_name bytes (fs.files.length + 1) 2

/-- The sequence of file names `ensure_original_cached` probes:
the preferred base name, then `name-2.ext`, `name-3.ext`, ... -/
def cacheCandidate (base : List Char) (i : ℕ) : List Char :=
  if i = 0 then base else numbered_filename base (i + 1)

/-! ### JPEG EXIF segment splicing (`insert_exif_segment`) -/

/-- The inline big-endian 2-byte length read
`((jpeg[i] as usize) << 8) | jpeg[i+1] as usize` (for byte values the
shift-or is `* 256 +`). -/
def read_be_len (l : List ℕ) (i : ℕ) : ℕ :=
  l.getD i 0 * 256 + l.getD (i + 1) 0

/-- First loop of `insert_exif_segment`: scan from `scan`, removing an
existing marker-`0xE1` segment (by its declared length) if one occurs before
the `0xDA` scan marker. -/
def remove_exif_scan (jpeg : List ℕ) (scan : ℕ) : List ℕ :=
  if h : scan + 4 ≤ jpeg.length ∧ jpeg.getD scan 0 = 0xFF then
    let marker := jpeg.getD (scan + 1) 0
    if marker = 0xDA then jpeg
    else if marker = 0xE1 then
      let len := read_be_len jpeg (scan + 2)
      let e := min (scan + 2 + len) jpeg.length
      jpeg.take scan ++ jpeg.drop e
    else if marker = 0xD8 ∨ marker = 0xD9 ∨ marker = 0x01 ∨ (0xD0 ≤ marker ∧ marker ≤ 0xD7) then
      remove_exif_scan jpeg (scan + 2)
    else
      let len := read_be_len jpeg (scan + 2)
      if len < 2 then jpeg
      else remove_exif_scan jpeg (scan + 2 + len)
  else jpeg
termination_by jpeg.length - scan
decreasing_by
  · omega
  · omega

/-- Second loop of `insert_exif_segment`: find the insertion position,
immediately after the leading `0xE0`–`0xEF` application segments. -/
def find_insert_pos (jpeg : List ℕ) (pos : ℕ) : ℕ :=
  if h : pos + 4 ≤ jpeg.length ∧ jpeg.getD pos 0 = 0xFF then
    let marker := jpeg.getD (pos + 1) 0
    if ¬(0xE0 ≤ marker ∧ marker ≤ 0xEF) then pos
    else if marker = 0xDA then pos
    else
      let len := read_be_len jpeg (pos + 2)
      if len < 2 then pos
      else find_insert_pos jpeg (pos + 2 + len)
  else pos
termination_by jpeg.length - pos
decreasing_by omega

/-- `insert_exif_segment(jpeg, exif_data)`: remove any existing `0xE1`
segment, then splice `FF E1 (len_be16) payload` after the leading application
segments.  An oversized payload (`len + 2 > u16::MAX`) is dropped. -/
def insert_exif_segment (jpeg : List ℕ) (exif_data : List ℕ) : List ℕ :=
  if jpeg.length < 2 ∨ jpeg.getD 0 0 ≠ 0xFF ∨ jpeg.getD 1 0 ≠ 0xD8 then jpeg
  else if 65535 < exif_data.length + 2 then jpeg
  else
    let cleaned := remove_exif_scan jpeg 2
    let pos := find_insert_pos cleaned 2
    let len := exif_data.length + 2
    let segment := 0xFF :: 0xE1 :: (len / 256) :: (len % 256) :: exif_data
    cleaned.take pos ++ segment ++ cleaned.drop pos

/-- The byte encoding of a length-bearing JPEG segment with marker `m` and
payload `p` (declared length = payload length + 2). -/
def segBytes (m : ℕ) (p : List ℕ) : List ℕ :=
  0xFF :: m :: ((p.length + 2) / 256) :: ((p.length + 2) % 256) :: p

/-- The byte encoding of a run of segments. -/
def segsBytes (segs : List (ℕ × List ℕ)) : List ℕ :=
  (segs.map (fun s => segBytes s.1 s.2)).flatten

/-- A non-EXIF application segment: marker in `0xE0`–`0xEF`, not `0xE1`. -/
def isAppSeg (s : ℕ × List ℕ) : Prop :=
  0xE0 ≤ s.1 ∧ s.1 ≤ 0xEF ∧ s.1 ≠ 0xE1

instance : DecidablePred isAppSeg := by
  intro s
  unfold isAppSeg
  infer_instance

/-! ### EXIF orientation normalization (`normalize_exif_orientation`) -/

/-- `read_u16(slice, le)`, reading at offset `pos` of the buffer. -/
def read_u16 (b : List ℕ) (pos : ℕ) (le : Bool) : ℕ :=
  if le then b.getD pos 0 + b.getD (pos + 1) 0 * 256
  else b.getD pos 0 * 256 + b.getD (pos + 1) 0

/-- `read_u32(slice, le)`, reading at offset `pos` of the buffer. -/
def read_u32 (b : List ℕ) (pos : ℕ) (le : Bool) : ℕ :=
  if le then
    b.getD pos 0 + b.getD (pos + 1) 0 * 256 + b.getD (pos + 2) 0 * 65536 +
      b.getD (pos + 3) 0 * 16777216
  else
    b.getD pos 0 * 16777216 + b.getD (pos + 1) 0 * 65536 + b.getD (pos + 2) 0 * 256 +
      b.getD (pos + 3) 0

/-- Overwrite the 2-byte orientation value field at `v` with `1` in the
directory's byte order. -/
def write_orient_one (b : List ℕ) (le : Bool) (v : ℕ) : List ℕ :=
  if le then (b.set v 1).set (v + 1) 0 else (b.set v 0).set (v + 1) 1

/-- The entry loop of `normalize_exif_orientation` (`for _ in 0..entries`):
scan directory entries at `pos`, rewriting the value field of the first entry
whose tag is `0x0112`. -/
def find_orient_entry (b : List ℕ) (le : Bool) : ℕ → ℕ → List ℕ
  | 0, _ => b
  | n + 1, pos =>
    if b.length < pos + 12 then b
    else
      let tag := read_u16 b pos le
      if tag = 0x0112 then
        if b.length < pos + 10 then b
        else write_orient_one b le (pos + 8)
      else find_orient_entry b le n (pos + 12)

/-- The body of `normalize_exif_orientation` once the byte-order mark has been
recognized: read the first-IFD offset and entry count, then scan the entries. -/
def normalize_exif_go (b : List ℕ) (le : Bool) : List ℕ :=
  let ifd_offset := read_u32 b 10 le
  let pos := 6 + ifd_offset
  if b.length < pos + 2 then b
  else
    let entries := read_u16 b pos le
    find_orient_entry b le entries (pos + 2)

/-- `normalize_exif_orientation(exif_bytes)` (the buffer is returned rather
than mutated in place).  The early returns are the header-length guards and
the `match` on the byte-order mark (`b"II"` / `b"MM"`). -/
def normalize_exif_orientation (b : List ℕ) : List ℕ :=
  if b.length < 12 then b
  else if b.length < 14 then b
  else if b.getD 6 0 = 0x49 ∧ b.getD 7 0 = 0x49 then normalize_exif_go b true
  else if b.getD 6 0 = 0x4D ∧ b.getD 7 0 = 0x4D then normalize_exif_go b false
  else b

/-! ### Orientation tag decoding (`tag_value_to_u16`) -/

/-- `rexif::TagValue`, restricted to the numeric encodings the converter
handles; `other` stands for every remaining constructor. -/
inductive TagValue where
  | U8 (values : List ℕ)
  | U16 (values : List ℕ)
  | U32 (values : List ℕ)
  | I8 (values : List ℤ)
  | I16 (values : List ℤ)
  | I32 (values : List ℤ)
  | other
deriving DecidableEq

/-- Machine-integer ranges of the payload lists (implicit in the Rust types
`u8`/`u16`/`u32`/`i8`/`i16`/`i32`). -/
def TagValue.wellFormed : TagValue → Prop
  | .U8 vs => ∀ x ∈ vs, x < 256
  | .U16 vs => ∀ x ∈ vs, x < 65536
  | .U32 vs => ∀ x ∈ vs, x < 4294967296
  | .I8 vs => ∀ x ∈ vs, -128 ≤ x ∧ x < 128
  | .I16 vs => ∀ x ∈ vs, -32768 ≤ x ∧ x < 32768
  | .I32 vs => ∀ x ∈ vs, -2147483648 ≤ x ∧ x < 2147483648
  | .other => True

instance : DecidablePred TagValue.wellFormed := by
  intro v
  cases v <;> simp only [TagValue.wellFormed] <;> infer_instance

/-- `tag_value_to_u16(value)`: the signed casts `v as u16` are `% 2^16` on the
non-negative representative. -/
def tag_value_to_u16 : TagValue → Option ℕ
  | .U16 vs => vs.head?
  | .U8 vs => vs.head?
  | .U32 vs => vs.head?.map (fun v => min v 65535)
  | .I16 vs => vs.head?.map (fun v => if v < 0 then 0 else v.toNat % 65536)
  | .I32 vs => vs.head?.map (fun v => if v < 0 then 0 else v.toNat % 65536)
  | .I8 vs => vs.head?.map (fun v => if v < 0 then 0 else v.toNat % 65536)
  | .other => none

/-! ### Resize dispatcher (`ResizeDispatcher`)

The dispatcher's shared state is its atomic pending-job counter; its history
is tracked by the number of `spawn` calls and of job bodies that have run to
completion.  Each atomic transition of the Rust code is a step: `spawn` is
the `fetch_add(1)` before enqueueing, `finish` is the `fetch_sub(1)` in
`job_finished` after the job body has completed.  `wait` can return exactly
when its load of the counter observes `0` (sequentially consistent
interleaving model of the `SeqCst` operations). -/

structure DispatcherState where
  pending : ℕ
  spawned : ℕ
  finished : ℕ
deriving DecidableEq

inductive DispatcherStep : DispatcherState → DispatcherState → Prop where
  | spawn (p s f : ℕ) : DispatcherStep ⟨p, s, f⟩ ⟨p + 1, s + 1, f⟩
  | finish (p s f : ℕ) : f < s → DispatcherStep ⟨p, s, f⟩ ⟨p - 1, s, f + 1⟩

/-- States reachable from the initial dispatcher state (counter `0`, no
jobs). -/
inductive DispatcherReachable : DispatcherState → Prop where
  | init : DispatcherReachable ⟨0, 0, 0⟩
  | step {s t : DispatcherState} :
      DispatcherReachable s → DispatcherStep s t → DispatcherReachable t

/-- The exit condition of `ResizeDispatcher::wait` (and hence of
`wait_for_pending_resizes`): the loop's load of the pending counter
observes `0`. -/
def wait_can_return (s : DispatcherState) : Prop := s.pending = 0

/-! ### Cache file-name sanitization (`sanitize_filename`) -/

/-- The character filter of `sanitize_filename`:
`ch.is_ascii_alphanumeric() || matches!(ch, '.' | '-' | '_')`. -/
def allowed_fname_char (c : Char) : Bool :=
  c.isAlphanum || c = '.' || c = '-' || c = '_'

/-- `sanitize_filename` on the underlying character list: cut at the first
`'?'`/`'#'`, keep the last `'/'`- or `'\'`-separated segment, replace
disallowed characters by `'_'`, and trim `'_'` from both ends. -/
def sanitize_core (input : List Char) : List Char :=
  let no_query := input.takeWhile (fun c => ¬(c = '?' ∨ c = '#'))
  let base := (no_query.reverse.takeWhile (fun c => ¬(c = '/' ∨ c = '\\'))).reverse
  let sanitized := base.map (fun ch => if allowed_fname_char ch then ch else '_')
  ((sanitized.dropWhile (fun c => c = '_')).reverse.dropWhile (fun c => c = '_')).reverse

/-- `sanitize_filename(input)`. -/
def sanitize_filename (input : String) : String :=
  (sanitize_core input.data).asString

/-- A file name that `Path::join` resolves to a direct child of the cache
directory: nonempty, not a current/parent-directory component, and free of
path separators. -/
def names_direct_child (s : String) : Prop :=
  s ≠ "" ∧ s ≠ "." ∧ s ≠ ".." ∧ '/' ∉ s.data ∧ '\\' ∉ s.data

instance : DecidablePred names_direct_child := by
  intro s
  unfold names_direct_child
  infer_instance

/-! ## Helper lemmas -/

/-- Rounding then flooring at 1 ignores an inner floor at 1 (for positive
arguments): `round(max(x,1)).max(1) = round(x).max(1)`. -/
theorem fround_max_one {x : ℚ} (hx : 0 < x) : max (fround (max x 1)) 1 = max (fround x) 1 := by
  rcases le_or_lt 1 x with h | h
  · rw [max_eq_left h]
  · rw [max_eq_right h.le]
    have h1 : fround (1 : ℚ) = 1 := by norm_num [fround]
    rw [h1]
    have h0 : (0 : ℤ) ≤ fround x := by
      unfold fround
      rw [if_pos hx.le]
      have : (0 : ℚ) ≤ x + 1 / 2 := by linarith
      exact Int.floor_nonneg.2 this
    have h2 : fround x ≤ 1 := by
      unfold fround
      rw [if_pos hx.le]
      have : x + 1 / 2 < 2 := by linarith
      have := Int.floor_lt.2 (by exact_mod_cast this : x + 1 / 2 < ((2 : ℤ) : ℚ))
      omega
    rw [max_self, max_eq_right h2]

/-- Unfolded form of `compute_display_dimensions` for positive inputs. -/
theorem compute_display_dimensions_eval (w h : ℚ) (L : ℕ)
    (hw : 0 < w) (hh : 0 < h) (hL : 0 < L) :
    compute_display_dimensions w h L =
      if w / h < 1 then
        ((max (fround (max (min (L : ℚ) h * (w / h)) 1)) 1).toNat,
         (max (fround (min (L : ℚ) h)) 1).toNat, false)
      else if 2 ≤ w / h then
        ((max (fround (min w ((L : ℚ) * 2))) 1).toNat,
         (max (fround (max (min w ((L : ℚ) * 2) / (w / h)) 1)) 1).toNat, true)
      else
        ((max (fround (min (L : ℚ) w)) 1).toNat,
         (max (fround (max (min (L : ℚ) w / (w / h)) 1)) 1).toNat, false) := by
  simp only [compute_display_dimensions]
  rw [show max L 1 = L from max_eq_left hL]
  rw [if_pos hw, if_pos hh, if_neg (not_le.2 hw), if_neg (not_le.2 hh), if_pos hh]
  split_ifs <;> rfl

/-- `1 ≤ (max z 1).toNat`. -/
theorem one_le_toNat_max_one (z : ℤ) : 1 ≤ (max z 1).toNat := by
  have h : (1 : ℤ) ≤ max z 1 := le_max_right z 1
  omega

/-- In a `≤`-sorted list every member is bounded by the last element. -/
theorem le_getLast_of_pairwise_le :
    ∀ {acc : List ℕ} {a : ℕ}, acc.Pairwise (· ≤ ·) → a ∈ acc →
      ∃ b, acc.getLast? = some b ∧ a ≤ b ∧ b ∈ acc := by
  intro acc
  induction acc with
  | nil => intro a _ ha; cases ha
  | cons x xs ih =>
    intro a hp ha
    cases xs with
    | nil =>
      rcases List.mem_cons.1 ha with rfl | ha'
      · exact ⟨a, rfl, le_refl a, List.mem_singleton_self a⟩
      · cases ha'
    | cons y ys =>
      rcases List.mem_cons.1 ha with rfl | ha'
      · obtain ⟨b, hb, hyb, hbmem⟩ :=
          ih hp.of_cons (List.mem_cons_self y ys)
        refine ⟨b, ?_, ?_, List.mem_cons_of_mem _ hbmem⟩
        · rw [List.getLast?_cons_cons]
          exact hb
        · exact le_trans (List.rel_of_pairwise_cons hp hbmem) (le_refl b)
      · obtain ⟨b, hb, hab, hbmem⟩ := ih hp.of_cons ha'
        refine ⟨b, ?_, hab, List.mem_cons_of_mem _ hbmem⟩
        rw [List.getLast?_cons_cons]
        exact hb

/-- The invariant of the `target_resize_widths` loop: starting from a strictly
ascending accumulator whose entries are below the original width and below all
upcoming clamped sizes, the loop keeps the accumulator strictly ascending and
below the original width. -/
theorem collect_widths_spec (W : ℕ) :
    ∀ (l acc : List ℕ), l.Pairwise (· < ·) → acc.Pairwise (· < ·) →
      (∀ a ∈ acc, a < W) → (∀ a ∈ acc, ∀ s ∈ l, a ≤ min s W) →
      (collect_widths W acc l).Pairwise (· < ·) ∧ ∀ a ∈ collect_widths W acc l, a < W := by
  intro l
  induction l with
  | nil =>
    intro acc _ hacc hlt _
    exact ⟨hacc, hlt⟩
  | cons s rest ih =>
    intro acc hl hacc hlt hle
    have hrest : rest.Pairwise (· < ·) := hl.of_cons
    have hhead : ∀ x ∈ rest, s < x := fun x hx => List.rel_of_pairwise_cons hl hx
    have hmono : ∀ a ∈ acc, ∀ x ∈ rest, a ≤ min x W := by
      intro a ha x hx
      have h1 : a ≤ min s W := hle a ha s (List.mem_cons_self s rest)
      have h2 : min s W ≤ min x W := min_le_min (le_of_lt (hhead x hx)) (le_refl W)
      exact le_trans h1 h2
    simp only [collect_widths]
    split_ifs with h1 h2
    · exact ih acc hrest hacc hlt hmono
    · exact ih acc hrest hacc hlt hmono
    · have htW : min s W < W := by
        rcases lt_or_eq_of_le (min_le_right s W) with h | h
        · exact h
        · exact absurd (Or.inr h) h1
      have hstep : ∀ a ∈ acc, a < min s W := by
        intro a ha
        obtain ⟨b, hb, hab, hbmem⟩ :=
          le_getLast_of_pairwise_le (hacc.imp le_of_lt) ha
        have hbt : b ≤ min s W := hle b hbmem s (List.mem_cons_self s rest)
        have hbne : b ≠ min s W := by
          intro he
          exact h2 (he ▸ hb)
        exact lt_of_le_of_lt hab (lt_of_le_of_ne hbt hbne)
      refine ih (acc ++ [min s W]) hrest ?_ ?_ ?_
      · rw [List.pairwise_append]
        refine ⟨hacc, List.pairwise_singleton _ _, ?_⟩
        intro a ha b hb
        rw [List.mem_singleton] at hb
        exact hb ▸ hstep a ha
      · intro a ha
        rcases List.mem_append.1 ha with h | h
        · exact hlt a h
        · rw [List.mem_singleton] at h
          exact h ▸ htW
      · intro a ha x hx
        rcases List.mem_append.1 ha with h | h
        · exact hmono a h x hx
        · rw [List.mem_singleton] at h
          subst h
          exact min_le_min (le_of_lt (hhead x hx)) (le_refl W)

/-- Consecutive `≤` together with consecutive `≠` gives consecutive `<`. -/
theorem chain'_lt_of_le_ne :
    ∀ (l : List ℕ), l.Chain' (· ≤ ·) → l.Chain' (· ≠ ·) → l.Chain' (· < ·) := by
  intro l
  induction l with
  | nil => intro _ _; trivial
  | cons a t ih =>
    intro hle hne
    cases t with
    | nil => exact List.chain'_singleton _
    | cons b t' =>
      rw [List.chain'_cons] at hle hne ⊢
      exact ⟨lt_of_le_of_ne hle.1 hne.1, ih hle.2 hne.2⟩

/-- `destutter (· ≠ ·)` of a `≤`-sorted list is strictly ascending (this is
Rust `sort_unstable()` followed by `dedup()`). -/
theorem destutter_sorted_lt (l : List ℕ) (hs : l.Pairwise (· ≤ ·)) :
    (l.destutter (· ≠ ·)).Pairwise (· < ·) := by
  have hsub := List.destutter_sublist (· ≠ ·) l
  have hle : (l.destutter (· ≠ ·)).Pairwise (· ≤ ·) := List.Pairwise.sublist hsub hs
  have hne := List.destutter_is_chain' (· ≠ ·) l
  have hlt := chain'_lt_of_le_ne _ hle.chain' hne
  exact List.chain'_iff_pairwise.1 hlt

/-- The two properties of `collect_widths` run from the empty accumulator. -/
theorem collect_widths_nil_spec (W : ℕ) (l : List ℕ) (hl : l.Pairwise (· < ·)) :
    (collect_widths W [] l).Pairwise (· < ·) ∧ ∀ a ∈ collect_widths W [] l, a < W :=
  collect_widths_spec W l [] hl (List.Pairwise.nil) (by intro a ha; cases ha)
    (by intro a ha; cases ha)

/-- The planner output is strictly ascending, duplicate-free and below the
original width, for any size configuration. -/
theorem target_resize_widths_props (sizes : List ℕ) (layout W display : ℕ) :
    (target_resize_widths sizes layout W display).Pairwise (· < ·) ∧
    (target_resize_widths sizes layout W display).Nodup ∧
    ∀ t ∈ target_resize_widths sizes layout W display, t < W := by
  unfold target_resize_widths
  have hsorted :
      (List.insertionSort (· ≤ ·)
        (if 0 < display ∧
            display ∉ (if layout ∈ sizes then sizes else sizes ++ [layout]) then
          (if layout ∈ sizes then sizes else sizes ++ [layout]) ++ [display]
        else if layout ∈ sizes then sizes else sizes ++ [layout])).Pairwise (· ≤ ·) :=
    List.sorted_insertionSort (· ≤ ·) _
  have hl := destutter_sorted_lt _ hsorted
  obtain ⟨h1, h2⟩ := collect_widths_nil_spec W _ hl
  exact ⟨h1, h1.imp ne_of_lt, h2⟩

/-! ## Claim theorems -/

/-- Claim C1: for positive width, height and layout width,
`compute_display_dimensions` returns a display width and height of at least 1,
with `is_wide` true iff `w / h ≥ 2`; for `w/h < 1` the display height is
`min(L, h)` and the width follows from the ratio, for `1 ≤ w/h < 2` the
display width is `min(L, w)` and the height follows, and for `w/h ≥ 2` the
display width is `min(w, 2L)` and the height follows — every result rounded to
the nearest integer and floored at 1. -/
theorem compute_display_dimensions_spec (w h : ℚ) (L : ℕ)
    (hw : 0 < w) (hh : 0 < h) (hL : 0 < L) :
    1 ≤ (compute_display_dimensions w h L).1 ∧
    1 ≤ (compute_display_dimensions w h L).2.1 ∧
    ((compute_display_dimensions w h L).2.2 = true ↔ 2 ≤ w / h) ∧
    (w / h < 1 →
      (compute_display_dimensions w h L).1 =
        (max (fround (min (L : ℚ) h * (w / h))) 1).toNat ∧
      (compute_display_dimensions w h L).2.1 = (max (fround (min (L : ℚ) h)) 1).toNat) ∧
    (1 ≤ w / h → w / h < 2 →
      (compute_display_dimensions w h L).1 = (max (fround (min (L : ℚ) w)) 1).toNat ∧
      (compute_display_dimensions w h L).2.1 =
        (max (fround (min (L : ℚ) w / (w / h))) 1).toNat) ∧
    (2 ≤ w / h →
      (compute_display_dimensions w h L).1 = (max (fround (min w ((L : ℚ) * 2))) 1).toNat ∧
      (compute_display_dimensions w h L).2.1 =
        (max (fround (min w ((L : ℚ) * 2) / (w / h))) 1).toNat) := by
  have hL' : (0 : ℚ) < L := by exact_mod_cast hL
  have hratio : 0 < w / h := div_pos hw hh
  rw [compute_display_dimensions_eval w h L hw hh hL]
  by_cases h1 : w / h < 1
  · rw [if_pos h1]
    have hmh : 0 < min (L : ℚ) h := lt_min hL' hh
    refine ⟨one_le_toNat_max_one _, one_le_toNat_max_one _, ?_, fun _ => ?_, ?_, ?_⟩
    · simp only [Bool.false_eq_true, false_iff, not_le]
      linarith
    · exact ⟨congrArg Int.toNat (fround_max_one (mul_pos hmh hratio)),
        rfl⟩
    · intro hge _
      linarith
    · intro hge
      linarith
  · rw [if_neg h1]
    push_neg at h1
    by_cases h2 : 2 ≤ w / h
    · rw [if_pos h2]
      have hmw : 0 < min w ((L : ℚ) * 2) := lt_min hw (by linarith)
      refine ⟨one_le_toNat_max_one _, one_le_toNat_max_one _, ?_, fun hc => ?_, ?_, fun _ => ?_⟩
      · simp only [true_iff]
        exact h2
      · linarith
      · intro _ hlt
        linarith
      · exact ⟨rfl, congrArg Int.toNat (fround_max_one (div_pos hmw hratio))⟩
    · rw [if_neg h2]
      push_neg at h2
      have hmw : 0 < min (L : ℚ) w := lt_min hL' hw
      refine ⟨one_le_toNat_max_one _, one_le_toNat_max_one _, ?_, fun hc => ?_, fun _ _ => ?_,
        fun hc => ?_⟩
      · simp only [Bool.false_eq_true, false_iff, not_le]
        exact h2
      · linarith
      · exact ⟨rfl, congrArg Int.toNat (fround_max_one (div_pos hmw hratio))⟩
      · linarith

/-- Witness for C1 at `(w, h, L) = (1600, 900, 1200)`. -/
theorem compute_display_dimensions_spec_witness :
    (0 : ℚ) < 1600 ∧ (0 : ℚ) < 900 ∧ 0 < 1200 ∧
    (1 ≤ (compute_display_dimensions 1600 900 1200).1 ∧
     1 ≤ (compute_display_dimensions 1600 900 1200).2.1 ∧
     ((compute_display_dimensions 1600 900 1200).2.2 = true ↔ 2 ≤ (1600 : ℚ) / 900) ∧
     ((1600 : ℚ) / 900 < 1 →
       (compute_display_dimensions 1600 900 1200).1 =
         (max (fround (min (1200 : ℚ) 900 * ((1600 : ℚ) / 900))) 1).toNat ∧
       (compute_display_dimensions 1600 900 1200).2.1 =
         (max (fround (min (1200 : ℚ) 900)) 1).toNat) ∧
     (1 ≤ (1600 : ℚ) / 900 → (1600 : ℚ) / 900 < 2 →
       (compute_display_dimensions 1600 900 1200).1 =
         (max (fround (min (1200 : ℚ) 1600)) 1).toNat ∧
       (compute_display_dimensions 1600 900 1200).2.1 =
         (max (fround (min (1200 : ℚ) 1600 / ((1600 : ℚ) / 900))) 1).toNat) ∧
     (2 ≤ (1600 : ℚ) / 900 →
       (compute_display_dimensions 1600 900 1200).1 =
         (max (fround (min 1600 ((1200 : ℚ) * 2))) 1).toNat ∧
       (compute_display_dimensions 1600 900 1200).2.1 =
         (max (fround (min 1600 ((1200 : ℚ) * 2) / ((1600 : ℚ) / 900))) 1).toNat)) :=
  ⟨by norm_num, by norm_num, by norm_num,
    compute_display_dimensions_spec 1600 900 1200 (by norm_num) (by norm_num) (by norm_num)⟩

/-- Claim C2: for every positive original width, `target_resize_widths` — the
configured sizes extended by the layout width and a nonzero display width,
sorted, deduplicated, clamped by `min` with the original width, skipping `0`
and the original width and collapsing consecutive duplicates — returns a
strictly ascending, duplicate-free list whose entries are all strictly less
than the original width. -/
theorem target_resize_widths_spec (sizes : List ℕ) (layout W display : ℕ) (hW : 0 < W) :
    (target_resize_widths sizes layout W display).Pairwise (· < ·) ∧
    (target_resize_widths sizes layout W display).Nodup ∧
    ∀ t ∈ target_resize_widths sizes layout W display, t < W :=
  target_resize_widths_props sizes layout W display

/-- Witness for C2 at sizes `[480, 800, 1200]`, layout `1200`, original width
`2000`, display width `1200`. -/
theorem target_resize_widths_spec_witness :
    0 < 2000 ∧
    ((target_resize_widths [480, 800, 1200] 1200 2000 1200).Pairwise (· < ·) ∧
     (target_resize_widths [480, 800, 1200] 1200 2000 1200).Nodup ∧
     ∀ t ∈ target_resize_widths [480, 800, 1200] 1200 2000 1200, t < 2000) :=
  ⟨by decide, target_resize_widths_spec [480, 800, 1200] 1200 2000 1200 (by decide)⟩

/-- Counterexample to claim C4: for original width 2000, sizes
`[480, 800, 1200]`, layout width 1200 and display width 1200 the planner does
not return `[480, 800]` — the clamped target 1200 is below the original width
and is therefore kept. -/
theorem target_resize_widths_c4_counterexample :
    target_resize_widths [480, 800, 1200] 1200 2000 1200 ≠ [480, 800] := by
  decide

/-- Claim C4 (amended): for original width 2000, sizes `[480, 800, 1200]`,
layout width 1200 and display width 1200 the planner produces target widths
exactly `[480, 800, 1200]`. -/
theorem target_resize_widths_c4_amended :
    target_resize_widths [480, 800, 1200] 1200 2000 1200 = [480, 800, 1200] := by
  decide

/-- Claim C3: the variant list of a raster `process` call (as `(width, height)`
pairs) is identical on the fresh path and the dimension-cache fast path, is
sorted strictly ascending by width with no duplicate widths, contains no width
`≥` the original width, and derives every height as
`round(width / original_width * original_height)` floored at 1. -/
theorem process_raster_variants_spec (sizes : List ℕ) (layout W H : ℕ) (hW : 0 < W) :
    process_raster_variants sizes layout W H = cached_path_variants sizes layout W H ∧
    (process_raster_variants sizes layout W H).Pairwise (fun a b => a.1 < b.1) ∧
    ((process_raster_variants sizes layout W H).map Prod.fst).Nodup ∧
    ∀ v ∈ process_raster_variants sizes layout W H,
      v.1 < W ∧ v.2 = (max (fround ((v.1 : ℚ) / (W : ℚ) * (H : ℚ))) 1).toNat := by
  obtain ⟨hasc, _, hlt⟩ :=
    target_resize_widths_props sizes layout W
      ((compute_display_dimensions (W : ℚ) (H : ℚ) layout).1)
  have hmapped :
      (List.map (fun t => (t, variant_height t W H))
        (target_resize_widths sizes layout W
          ((compute_display_dimensions (W : ℚ) (H : ℚ) layout).1))).Pairwise
        (fun a b => a.1 < b.1) := by
    rw [List.pairwise_map]
    exact hasc
  have hsorted :
      (List.map (fun t => (t, variant_height t W H))
        (target_resize_widths sizes layout W
          ((compute_display_dimensions (W : ℚ) (H : ℚ) layout).1))).Pairwise
        (fun a b : ℕ × ℕ => a.1 ≤ b.1) :=
    hmapped.imp (fun h => le_of_lt h)
  have heq : process_raster_variants sizes layout W H =
      List.map (fun t => (t, variant_height t W H))
        (target_resize_widths sizes layout W
          ((compute_display_dimensions (W : ℚ) (H : ℚ) layout).1)) := by
    unfold process_raster_variants
    exact List.Sorted.insertionSort_eq hsorted
  refine ⟨rfl, ?_, ?_, ?_⟩
  · rw [heq]
    exact hmapped
  · rw [heq, List.map_map]
    have : (Prod.fst ∘ fun t : ℕ => (t, variant_height t W H)) = id := rfl
    rw [this, List.map_id]
    exact (hasc.imp ne_of_lt)
  · intro v hv
    rw [heq] at hv
    obtain ⟨t, ht, rfl⟩ := List.mem_map.1 hv
    exact ⟨hlt t ht, rfl⟩

/-- Witness for C3 at sizes `[480, 800, 1200]`, layout `1200`, original
dimensions `2000 × 1000`. -/
theorem process_raster_variants_spec_witness :
    0 < 2000 ∧
    (process_raster_variants [480, 800, 1200] 1200 2000 1000 =
       cached_path_variants [480, 800, 1200] 1200 2000 1000 ∧
     (process_raster_variants [480, 800, 1200] 1200 2000 1000).Pairwise
       (fun a b => a.1 < b.1) ∧
     ((process_raster_variants [480, 800, 1200] 1200 2000 1000).map Prod.fst).Nodup ∧
     ∀ v ∈ process_raster_variants [480, 800, 1200] 1200 2000 1000,
       v.1 < 2000 ∧ v.2 = (max (fround ((v.1 : ℚ) / (2000 : ℚ) * (1000 : ℚ))) 1).toNat) :=
  ⟨by decide, process_raster_variants_spec [480, 800, 1200] 1200 2000 1000 (by decide)⟩

/-- Counterexample to claim C8: `tag_value_to_u16` does not clamp values to
the canonical 1–8 orientation range — the well-formed input `U16([9])` is
returned as the code `9`, outside `0..8`. -/
theorem tag_value_to_u16_c8_counterexample :
    (TagValue.U16 [9]).wellFormed ∧
    tag_value_to_u16 (TagValue.U16 [9]) = some 9 ∧ ¬(9 : ℕ) ≤ 8 := by
  refine ⟨?_, rfl, by decide⟩
  intro x hx
  simp only [List.mem_singleton] at hx
  omega

/-- Claim C8 (amended): `tag_value_to_u16` maps every negative first value to
0 and clamps unsigned 32-bit values to `u16::MAX`; on any well-formed
machine-integer payload the returned code lies in `0..65535` (it is not
restricted to the canonical 1–8 range). -/
theorem tag_value_to_u16_amended :
    (∀ v : TagValue, v.wellFormed → ∀ c, tag_value_to_u16 v = some c → c ≤ 65535) ∧
    (∀ (vs : List ℤ) (x : ℤ), vs.head? = some x → x < 0 →
      tag_value_to_u16 (TagValue.I8 vs) = some 0 ∧
      tag_value_to_u16 (TagValue.I16 vs) = some 0 ∧
      tag_value_to_u16 (TagValue.I32 vs) = some 0) ∧
    (∀ (vs : List ℕ) (x : ℕ), vs.head? = some x →
      tag_value_to_u16 (TagValue.U32 vs) = some (min x 65535)) := by
  refine ⟨?_, ?_, ?_⟩
  · intro v hwf c hc
    cases v with
    | U8 vs =>
      cases vs with
      | nil => cases hc
      | cons a t =>
        simp only [tag_value_to_u16, List.head?_cons, Option.some.injEq] at hc
        have := hwf a (List.mem_cons_self a t)
        omega
    | U16 vs =>
      cases vs with
      | nil => cases hc
      | cons a t =>
        simp only [tag_value_to_u16, List.head?_cons, Option.some.injEq] at hc
        have := hwf a (List.mem_cons_self a t)
        omega
    | U32 vs =>
      cases vs with
      | nil => cases hc
      | cons a t =>
        simp only [tag_value_to_u16, List.head?_cons, Option.map_some',
          Option.some.injEq] at hc
        omega
    | I8 vs =>
      cases vs with
      | nil => cases hc
      | cons a t =>
        simp only [tag_value_to_u16, List.head?_cons, Option.map_some',
          Option.some.injEq] at hc
        split_ifs at hc <;> omega
    | I16 vs =>
      cases vs with
      | nil => cases hc
      | cons a t =>
        simp only [tag_value_to_u16, List.head?_cons, Option.map_some',
          Option.some.injEq] at hc
        split_ifs at hc <;> omega
    | I32 vs =>
      cases vs with
      | nil => cases hc
      | cons a t =>
        simp only [tag_value_to_u16, List.head?_cons, Option.map_some',
          Option.some.injEq] at hc
        split_ifs at hc <;> omega
    | other => cases hc
  · intro vs x hhead hneg
    refine ⟨?_, ?_, ?_⟩ <;>
      simp only [tag_value_to_u16, hhead, Option.map_some', if_pos hneg]
  · intro vs x hhead
    simp only [tag_value_to_u16, hhead, Option.map_some']

/-- Witness for the amended C8 at `I16([-3])` and `U32([100000])`. -/
theorem tag_value_to_u16_amended_witness :
    (TagValue.I16 [-3]).wellFormed ∧ ([(-3 : ℤ)].head? = some (-3)) ∧ (-3 : ℤ) < 0 ∧
    tag_value_to_u16 (TagValue.I16 [-3]) = some 0 ∧
    tag_value_to_u16 (TagValue.U32 [100000]) = some (min 100000 65535) := by
  refine ⟨?_, rfl, by decide, ?_, ?_⟩
  · intro x hx
    simp only [List.mem_singleton] at hx
    omega
  · exact (tag_value_to_u16_amended.2.1 [-3] (-3) rfl (by decide)).2.1
  · exact tag_value_to_u16_amended.2.2 [100000] 100000 rfl

/-- The counter invariant of the resize dispatcher: in every reachable state,
the pending counter equals the number of spawned jobs whose bodies have not
yet completed. -/
theorem dispatcher_invariant (s : DispatcherState) (h : DispatcherReachable s) :
    s.finished ≤ s.spawned ∧ s.pending = s.spawned - s.finished := by
  induction h with
  | init => exact ⟨le_refl 0, rfl⟩
  | step hr hstep ih =>
    cases hstep with
    | spawn p sp f =>
      simp only at ih ⊢
      omega
    | finish p sp f hf =>
      simp only at ih ⊢
      omega

/-- Claim C9: whenever the `wait` loop of `wait_for_pending_resizes` can
return — its load of the atomic pending counter observes `0` — every job
scheduled via `spawn` up to that point (including jobs scheduled concurrently
with the wait) has completed, and the pending counter is zero. -/
theorem wait_returns_after_all_jobs (s : DispatcherState) (h : DispatcherReachable s)
    (hw : wait_can_return s) : s.finished = s.spawned ∧ s.pending = 0 := by
  obtain ⟨h1, h2⟩ := dispatcher_invariant s h
  unfold wait_can_return at hw
  omega

/-- Witness for C9 at the reachable state after one spawn and one completion. -/
theorem wait_returns_after_all_jobs_witness :
    DispatcherReachable ⟨0, 1, 1⟩ ∧ wait_can_return ⟨0, 1, 1⟩ ∧
    ((⟨0, 1, 1⟩ : DispatcherState).finished = (⟨0, 1, 1⟩ : DispatcherState).spawned ∧
     (⟨0, 1, 1⟩ : DispatcherState).pending = 0) :=
  have hreach : DispatcherReachable ⟨0, 1, 1⟩ :=
    DispatcherReachable.step
      (DispatcherReachable.step DispatcherReachable.init (DispatcherStep.spawn 0 0 0))
      (DispatcherStep.finish 1 1 0 Nat.one_pos)
  ⟨hreach, rfl, wait_returns_after_all_jobs ⟨0, 1, 1⟩ hreach rfl⟩

/-- The head surviving `dropWhile p` fails `p`. -/
theorem head?_dropWhile_ne (p : Char → Bool) :
    ∀ (l : List Char) (a : Char), (l.dropWhile p).head? = some a → p a = false := by
  intro l
  induction l with
  | nil => intro a h; cases h
  | cons c t ih =>
    intro a h
    rw [List.dropWhile_cons] at h
    by_cases hc : p c = true
    · rw [if_pos hc] at h
      exact ih a h
    · rw [if_neg hc] at h
      simp only [List.head?_cons, Option.some.injEq] at h
      subst h
      exact (Bool.not_eq_true (p c)) ▸ hc

/-- `sanitize_core` emits only allowed characters and never an underscore at
either end. -/
theorem sanitize_core_props (input : List Char) :
    (∀ c ∈ sanitize_core input, allowed_fname_char c = true) ∧
    (sanitize_core input).head? ≠ some '_' ∧
    (sanitize_core input).getLast? ≠ some '_' := by
  unfold sanitize_core
  set base := ((input.takeWhile fun c => ¬(c = '?' ∨ c = '#')).reverse.takeWhile
      fun c => ¬(c = '/' ∨ c = '\\')).reverse with hbase
  set sanitized := base.map (fun ch => if allowed_fname_char ch then ch else '_') with hsan
  set d1 := sanitized.dropWhile (fun c => c = '_') with hd1
  set y := d1.reverse.dropWhile (fun c => c = '_') with hy
  refine ⟨?_, ?_, ?_⟩
  · intro c hc
    rw [List.mem_reverse] at hc
    have hc2 : c ∈ d1.reverse := List.Sublist.mem hc (List.dropWhile_sublist _)
    rw [List.mem_reverse] at hc2
    have hc3 : c ∈ sanitized := List.Sublist.mem hc2 (List.dropWhile_sublist _)
    rw [hsan] at hc3
    obtain ⟨ch, _, hch⟩ := List.mem_map.1 hc3
    by_cases hall : allowed_fname_char ch = true
    · rw [if_pos hall] at hch
      exact hch ▸ hall
    · rw [if_neg hall] at hch
      rw [← hch]
      decide
  · rw [List.head?_reverse]
    intro hcon
    have hsplit := List.takeWhile_append_dropWhile (fun c : Char => c = '_') d1.reverse
    have h1 : d1.reverse.getLast? = some '_' := by
      rw [← hsplit, List.getLast?_append]
      rw [← hy] at *
      rw [hcon]
      rfl
    rw [List.getLast?_reverse] at h1
    have h2 := head?_dropWhile_ne (fun c : Char => c = '_') sanitized '_' (hd1 ▸ h1)
    simp at h2
  · rw [List.getLast?_reverse]
    intro hcon
    have := head?_dropWhile_ne (fun c : Char => c = '_') d1.reverse '_' (hy ▸ hcon)
    simp at this

/-- Counterexample to claim C10: `sanitize_filename("..")` is `".."`, whose
characters are all in the allowed set, yet as a cache file name it designates
the parent of the cache directory, not a file directly inside it. -/
theorem sanitize_filename_c10_counterexample :
    sanitize_filename ".." = ".." ∧ ¬names_direct_child (sanitize_filename "..") := by
  exact ⟨rfl, by decide⟩

/-- Claim C10 (amended): `sanitize_filename` returns a string of ASCII
alphanumerics and `.`/`-`/`_` only, with no leading or trailing `_` and in
particular no `/` or `\`; except for the degenerate outputs `""`, `"."` and
`".."`, every derived cache file name therefore names a file directly inside
the cache directory. -/
theorem sanitize_filename_amended (s : String) :
    (∀ c ∈ (sanitize_filename s).data, allowed_fname_char c = true) ∧
    (sanitize_filename s).data.head? ≠ some '_' ∧
    (sanitize_filename s).data.getLast? ≠ some '_' ∧
    '/' ∉ (sanitize_filename s).data ∧
    '\\' ∉ (sanitize_filename s).data ∧
    (sanitize_filename s ≠ "" → sanitize_filename s ≠ "." → sanitize_filename s ≠ ".." →
      names_direct_child (sanitize_filename s)) := by
  have hdata : (sanitize_filename s).data = sanitize_core s.data := rfl
  obtain ⟨h1, h2, h3⟩ := sanitize_core_props s.data
  have hchars : ∀ c ∈ (sanitize_filename s).data, allowed_fname_char c = true := by
    rw [hdata]; exact h1
  have h4 : '/' ∉ (sanitize_filename s).data := fun hm => absurd (hchars '/' hm) (by decide)
  have h5 : '\\' ∉ (sanitize_filename s).data := fun hm => absurd (hchars '\\' hm) (by decide)
  refine ⟨hchars, hdata ▸ h2, hdata ▸ h3, h4, h5, ?_⟩
  intro hne1 hne2 hne3
  exact ⟨hne1, hne2, hne3, h4, h5⟩

/-- Witness for the amended C10 at the input `"photo 1.png"`. -/
theorem sanitize_filename_amended_witness :
    (∀ c ∈ (sanitize_filename "photo 1.png").data, allowed_fname_char c = true) ∧
    (sanitize_filename "photo 1.png").data.head? ≠ some '_' ∧
    (sanitize_filename "photo 1.png").data.getLast? ≠ some '_' ∧
    '/' ∉ (sanitize_filename "photo 1.png").data ∧
    '\\' ∉ (sanitize_filename "photo 1.png").data ∧
    (sanitize_filename "photo 1.png" ≠ "" → sanitize_filename "photo 1.png" ≠ "." →
      sanitize_filename "photo 1.png" ≠ ".." →
      names_direct_child (sanitize_filename "photo 1.png")) :=
  sanitize_filename_amended "photo 1.png"

/-- Characterization of the entry-scan loop of `normalize_exif_orientation`:
either the buffer is returned unchanged, or the first in-bounds entry with tag
`0x0112` (and no earlier one) has its value field overwritten. -/
theorem find_orient_entry_spec (b : List ℕ) (le : Bool) :
    ∀ (n pos : ℕ),
      find_orient_entry b le n pos = b ∨
      ∃ k, k < n ∧ (∀ j ≤ k, pos + 12 * j + 12 ≤ b.length) ∧
        (∀ j < k, read_u16 b (pos + 12 * j) le ≠ 0x0112) ∧
        read_u16 b (pos + 12 * k) le = 0x0112 ∧
        find_orient_entry b le n pos = write_orient_one b le (pos + 12 * k + 8) := by
  intro n
  induction n with
  | zero => intro pos; exact Or.inl rfl
  | succ m ih =>
    intro pos
    simp only [find_orient_entry]
    by_cases hb : b.length < pos + 12
    · rw [if_pos hb]
      exact Or.inl rfl
    · rw [if_neg hb]
      by_cases htag : read_u16 b pos le = 0x0112
      · rw [if_pos htag, if_neg (by omega)]
        right
        refine ⟨0, Nat.succ_pos m, ?_, ?_, ?_, ?_⟩
        · intro j hj
          have hj0 : j = 0 := Nat.le_zero.1 hj
          subst hj0
          omega
        · intro j hj
          cases hj
        · simpa using htag
        · simp
      · rw [if_neg htag]
        rcases ih (pos + 12) with h | ⟨k, hk, hbnd, hne, heq, hres⟩
        · exact Or.inl h
        · right
          refine ⟨k + 1, by omega, ?_, ?_, ?_, ?_⟩
          · intro j hj
            cases j with
            | zero => simpa using (by omega : pos + 12 ≤ b.length)
            | succ i =>
              have h2 := hbnd i (by omega)
              rw [show pos + 12 * (i + 1) + 12 = pos + 12 + 12 * i + 12 by ring]
              exact h2
          · intro j hj
            cases j with
            | zero => simpa using htag
            | succ i =>
              have h2 := hne i (by omega)
              rw [show pos + 12 * (i + 1) = pos + 12 + 12 * i by ring]
              exact h2
          · rw [show pos + 12 * (k + 1) = pos + 12 + 12 * k by ring]
            exact heq
          · rw [show pos + 12 * (k + 1) + 8 = pos + 12 + 12 * k + 8 by ring]
            exact hres

/-- `write_orient_one` preserves the buffer length. -/
theorem length_write_orient_one (b : List ℕ) (le : Bool) (v : ℕ) :
    (write_orient_one b le v).length = b.length := by
  unfold write_orient_one
  split_ifs <;> simp

/-- `write_orient_one` leaves every byte outside the 2-byte value field
unchanged. -/
theorem getD_write_orient_one_ne (b : List ℕ) (le : Bool) (v i : ℕ)
    (h1 : i ≠ v) (h2 : i ≠ v + 1) :
    (write_orient_one b le v).getD i 0 = b.getD i 0 := by
  unfold write_orient_one
  split_ifs <;>
    rw [List.getD_eq_getElem?_getD, List.getElem?_set_ne (by omega),
      List.getElem?_set_ne (by omega), ← List.getD_eq_getElem?_getD]

/-- The value field written by `write_orient_one` encodes `1` in the declared
byte order. -/
theorem getD_write_orient_one_self (b : List ℕ) (le : Bool) (v : ℕ)
    (h : v + 2 ≤ b.length) :
    (write_orient_one b le v).getD v 0 = (if le then 1 else 0) ∧
    (write_orient_one b le v).getD (v + 1) 0 = (if le then 0 else 1) := by
  have hv : v < b.length := by omega
  have hv1 : v + 1 < b.length := by omega
  unfold write_orient_one
  by_cases hle : le = true
  · simp only [if_pos hle]
    constructor
    · rw [List.getD_eq_getElem?_getD, List.getElem?_set_ne (by omega),
        List.getElem?_set_self (by simpa using hv)]
      rfl
    · rw [List.getD_eq_getElem?_getD, List.getElem?_set_self (by simpa using hv1)]
      rfl
  · simp only [if_neg hle]
    constructor
    · rw [List.getD_eq_getElem?_getD, List.getElem?_set_ne (by omega),
        List.getElem?_set_self (by simpa using hv)]
      rfl
    · rw [List.getD_eq_getElem?_getD, List.getElem?_set_self (by simpa using hv1)]
      rfl

/-- Characterization of `normalize_exif_go`: unchanged, or the first `0x0112`
entry's value field overwritten with a byte-order encoding of `1`. -/
theorem normalize_exif_go_spec (b : List ℕ) (le : Bool) :
    (normalize_exif_go b le).length = b.length ∧
    (normalize_exif_go b le = b ∨
      ∃ k,
        6 + read_u32 b 10 le + 2 ≤ b.length ∧
        k < read_u16 b (6 + read_u32 b 10 le) le ∧
        (∀ j < k, read_u16 b (6 + read_u32 b 10 le + 2 + 12 * j) le ≠ 0x0112) ∧
        read_u16 b (6 + read_u32 b 10 le + 2 + 12 * k) le = 0x0112 ∧
        6 + read_u32 b 10 le + 2 + 12 * k + 12 ≤ b.length ∧
        normalize_exif_go b le =
          write_orient_one b le (6 + read_u32 b 10 le + 2 + 12 * k + 8) ∧
        (∀ i, i ≠ 6 + read_u32 b 10 le + 2 + 12 * k + 8 →
          i ≠ 6 + read_u32 b 10 le + 2 + 12 * k + 9 →
          (normalize_exif_go b le).getD i 0 = b.getD i 0) ∧
        (normalize_exif_go b le).getD (6 + read_u32 b 10 le + 2 + 12 * k + 8) 0 =
          (if le then 1 else 0) ∧
        (normalize_exif_go b le).getD (6 + read_u32 b 10 le + 2 + 12 * k + 9) 0 =
          (if le then 0 else 1)) := by
  simp only [normalize_exif_go]
  by_cases hlen : b.length < 6 + read_u32 b 10 le + 2
  · rw [if_pos hlen]
    exact ⟨rfl, Or.inl rfl⟩
  · rw [if_neg hlen]
    rcases find_orient_entry_spec b le (read_u16 b (6 + read_u32 b 10 le) le)
        (6 + read_u32 b 10 le + 2) with h | ⟨k, hk, hbnd, hne, heq, hres⟩
    · rw [h]
      exact ⟨rfl, Or.inl rfl⟩
    · rw [hres]
      have hkbnd := hbnd k (le_refl k)
      have hv2 : 6 + read_u32 b 10 le + 2 + 12 * k + 8 + 2 ≤ b.length := by omega
      obtain ⟨hset1, hset2⟩ := getD_write_orient_one_self b le _ hv2
      refine ⟨length_write_orient_one b le _,
        Or.inr ⟨k, by omega, hk, hne, heq, by omega, rfl, ?_, hset1, ?_⟩⟩
      · intro i hi1 hi2
        exact getD_write_orient_one_ne b le _ i hi1 (by omega)
      · rw [show 6 + read_u32 b 10 le + 2 + 12 * k + 9 =
            6 + read_u32 b 10 le + 2 + 12 * k + 8 + 1 by ring]
        exact hset2

/-- Claim C7: `normalize_exif_orientation` modifies at most the 2-byte value
field of the first in-bounds entry with tag `0x0112` in the first IFD, setting
it to the value 1 in the directory's declared byte order (`II` or `MM`); the
length and every other byte are unchanged, and on a short header, an
unrecognized byte-order mark, or no in-bounds `0x0112` entry the whole buffer
is returned unchanged. -/
theorem normalize_exif_orientation_spec (b : List ℕ) :
    (normalize_exif_orientation b).length = b.length ∧
    (normalize_exif_orientation b = b ∨
      ∃ le k,
        ((le = true ∧ b.getD 6 0 = 0x49 ∧ b.getD 7 0 = 0x49) ∨
         (le = false ∧ b.getD 6 0 = 0x4D ∧ b.getD 7 0 = 0x4D)) ∧
        14 ≤ b.length ∧
        6 + read_u32 b 10 le + 2 ≤ b.length ∧
        k < read_u16 b (6 + read_u32 b 10 le) le ∧
        (∀ j < k, read_u16 b (6 + read_u32 b 10 le + 2 + 12 * j) le ≠ 0x0112) ∧
        read_u16 b (6 + read_u32 b 10 le + 2 + 12 * k) le = 0x0112 ∧
        6 + read_u32 b 10 le + 2 + 12 * k + 12 ≤ b.length ∧
        normalize_exif_orientation b =
          write_orient_one b le (6 + read_u32 b 10 le + 2 + 12 * k + 8) ∧
        (∀ i, i ≠ 6 + read_u32 b 10 le + 2 + 12 * k + 8 →
          i ≠ 6 + read_u32 b 10 le + 2 + 12 * k + 9 →
          (normalize_exif_orientation b).getD i 0 = b.getD i 0) ∧
        (normalize_exif_orientation b).getD (6 + read_u32 b 10 le + 2 + 12 * k + 8) 0 =
          (if le then 1 else 0) ∧
        (normalize_exif_orientation b).getD (6 + read_u32 b 10 le + 2 + 12 * k + 9) 0 =
          (if le then 0 else 1)) := by
  unfold normalize_exif_orientation
  split_ifs with h12 h14 hII hMM
  · exact ⟨rfl, Or.inl rfl⟩
  · exact ⟨rfl, Or.inl rfl⟩
  · obtain ⟨hlen, hcase⟩ := normalize_exif_go_spec b true
    refine ⟨hlen, ?_⟩
    rcases hcase with h | ⟨k, hA, hB, hC, hD, hE, hF, hG, hH, hI⟩
    · exact Or.inl h
    · exact Or.inr ⟨true, k, Or.inl ⟨rfl, hII.1, hII.2⟩, by omega, hA, hB, hC, hD, hE, hF,
        hG, hH, hI⟩
  · obtain ⟨hlen, hcase⟩ := normalize_exif_go_spec b false
    refine ⟨hlen, ?_⟩
    rcases hcase with h | ⟨k, hA, hB, hC, hD, hE, hF, hG, hH, hI⟩
    · exact Or.inl h
    · exact Or.inr ⟨false, k, Or.inr ⟨rfl, hMM.1, hMM.2⟩, by omega, hA, hB, hC, hD, hE, hF,
        hG, hH, hI⟩
  · exact ⟨rfl, Or.inl rfl⟩

/-! ### Lemmas for the JPEG EXIF segment splice (C6) -/

theorem segBytes_length (m : ℕ) (p : List ℕ) : (segBytes m p).length = 4 + p.length := by
  simp [segBytes]
  omega

theorem getD_append_offset (pre l : List ℕ) (i : ℕ) :
    (pre ++ l).getD (pre.length + i) 0 = l.getD i 0 := by
  rw [List.getD_append_right pre l 0 (pre.length + i) (by omega), Nat.add_sub_cancel_left]

-- key probe: one-step unfold of the WF def

theorem remove_exif_scan_skip (pre suf p : List ℕ) (m scan : ℕ)
    (hscan : scan = pre.length)
    (hm : m ≠ 0xDA) (hm2 : m ≠ 0xE1)
    (hm3 : ¬(m = 0xD8 ∨ m = 0xD9 ∨ m = 0x01 ∨ (0xD0 ≤ m ∧ m ≤ 0xD7))) :
    remove_exif_scan (pre ++ segBytes m p ++ suf) scan =
      remove_exif_scan (pre ++ segBytes m p ++ suf) (scan + (4 + p.length)) := by
  subst hscan
  have hassoc : pre ++ segBytes m p ++ suf = pre ++ (segBytes m p ++ suf) :=
    List.append_assoc pre _ suf
  have hlen : (pre ++ segBytes m p ++ suf).length =
      pre.length + (4 + p.length) + suf.length := by
    simp [segBytes]
    omega
  have h0 : (pre ++ segBytes m p ++ suf).getD (pre.length + 0) 0 = 0xFF := by
    rw [hassoc, getD_append_offset]
    rfl
  have h1 : (pre ++ segBytes m p ++ suf).getD (pre.length + 1) 0 = m := by
    rw [hassoc, getD_append_offset]
    rfl
  have h2 : (pre ++ segBytes m p ++ suf).getD (pre.length + 2) 0 = (p.length + 2) / 256 := by
    rw [hassoc, getD_append_offset]
    rfl
  have h3 : (pre ++ segBytes m p ++ suf).getD (pre.length + 2 + 1) 0 = (p.length + 2) % 256 := by
    rw [show pre.length + 2 + 1 = pre.length + 3 by omega, hassoc, getD_append_offset]
    rfl
  have hread : read_be_len (pre ++ segBytes m p ++ suf) (pre.length + 2) = p.length + 2 := by
    unfold read_be_len
    rw [h2, h3]
    omega
  have hcond : pre.length + 4 ≤ (pre ++ segBytes m p ++ suf).length ∧
      (pre ++ segBytes m p ++ suf).getD pre.length 0 = 0xFF := by
    constructor
    · omega
    · have := h0
      rwa [Nat.add_zero] at this
  conv_lhs => rw [remove_exif_scan]
  rw [dif_pos hcond]
  simp only [h1]
  rw [if_neg hm, if_neg hm2, if_neg hm3, hread, if_neg (by omega : ¬(p.length + 2 < 2))]
  rw [show pre.length + 2 + (p.length + 2) = pre.length + (4 + p.length) by omega]

theorem remove_exif_scan_e1 (pre suf p : List ℕ) (scan : ℕ) (hscan : scan = pre.length) :
    remove_exif_scan (pre ++ segBytes 0xE1 p ++ suf) scan = pre ++ suf := by
  subst hscan
  have hassoc : pre ++ segBytes 0xE1 p ++ suf = pre ++ (segBytes 0xE1 p ++ suf) :=
    List.append_assoc pre _ suf
  have hlen : (pre ++ segBytes 0xE1 p ++ suf).length =
      pre.length + (4 + p.length) + suf.length := by
    simp [segBytes]
    omega
  have h0 : (pre ++ segBytes 0xE1 p ++ suf).getD (pre.length + 0) 0 = 0xFF := by
    rw [hassoc, getD_append_offset]; rfl
  have h1 : (pre ++ segBytes 0xE1 p ++ suf).getD (pre.length + 1) 0 = 0xE1 := by
    rw [hassoc, getD_append_offset]; rfl
  have h2 : (pre ++ segBytes 0xE1 p ++ suf).getD (pre.length + 2) 0 = (p.length + 2) / 256 := by
    rw [hassoc, getD_append_offset]; rfl
  have h3 : (pre ++ segBytes 0xE1 p ++ suf).getD (pre.length + 2 + 1) 0 = (p.length + 2) % 256 := by
    rw [show pre.length + 2 + 1 = pre.length + 3 by omega, hassoc, getD_append_offset]; rfl
  have hread : read_be_len (pre ++ segBytes 0xE1 p ++ suf) (pre.length + 2) = p.length + 2 := by
    unfold read_be_len
    rw [h2, h3]
    omega
  have hcond : pre.length + 4 ≤ (pre ++ segBytes 0xE1 p ++ suf).length ∧
      (pre ++ segBytes 0xE1 p ++ suf).getD pre.length 0 = 0xFF := by
    refine ⟨by omega, ?_⟩
    have := h0
    rwa [Nat.add_zero] at this
  conv_lhs => rw [remove_exif_scan]
  rw [dif_pos hcond]
  simp only [h1]
  rw [if_neg (by omega : ¬((0xE1 : ℕ) = 0xDA)), if_pos trivial, hread]
  rw [show min (pre.length + 2 + (p.length + 2)) (pre ++ segBytes 0xE1 p ++ suf).length =
      pre.length + (4 + p.length) by omega]
  have htake : (pre ++ segBytes 0xE1 p ++ suf).take pre.length = pre := by
    rw [hassoc, List.take_left]
  have hdrop : (pre ++ segBytes 0xE1 p ++ suf).drop (pre.length + (4 + p.length)) = suf := by
    rw [show pre.length + (4 + p.length) = (pre ++ segBytes 0xE1 p).length by
        simp [segBytes]; omega]
    exact List.drop_left _ _
  rw [htake, hdrop]

theorem remove_exif_scan_da (pre suf : List ℕ) (scan : ℕ) (hscan : scan = pre.length) :
    remove_exif_scan (pre ++ 0xFF :: 0xDA :: suf) scan = pre ++ 0xFF :: 0xDA :: suf := by
  subst hscan
  by_cases hcond : pre.length + 4 ≤ (pre ++ 0xFF :: 0xDA :: suf).length ∧
      (pre ++ 0xFF :: 0xDA :: suf).getD pre.length 0 = 0xFF
  · have h1 : (pre ++ 0xFF :: 0xDA :: suf).getD (pre.length + 1) 0 = 0xDA := by
      rw [getD_append_offset]
      rfl
    conv_lhs => rw [remove_exif_scan]
    rw [dif_pos hcond]
    simp only [h1]
    rw [if_pos trivial]
  · conv_lhs => rw [remove_exif_scan]
    rw [dif_neg hcond]

theorem find_insert_pos_skip (pre suf p : List ℕ) (m pos : ℕ)
    (hpos : pos = pre.length) (hm : 0xE0 ≤ m) (hm' : m ≤ 0xEF) :
    find_insert_pos (pre ++ segBytes m p ++ suf) pos =
      find_insert_pos (pre ++ segBytes m p ++ suf) (pos + (4 + p.length)) := by
  subst hpos
  have hassoc : pre ++ segBytes m p ++ suf = pre ++ (segBytes m p ++ suf) :=
    List.append_assoc pre _ suf
  have hlen : (pre ++ segBytes m p ++ suf).length =
      pre.length + (4 + p.length) + suf.length := by
    simp [segBytes]
    omega
  have h0 : (pre ++ segBytes m p ++ suf).getD (pre.length + 0) 0 = 0xFF := by
    rw [hassoc, getD_append_offset]; rfl
  have h1 : (pre ++ segBytes m p ++ suf).getD (pre.length + 1) 0 = m := by
    rw [hassoc, getD_append_offset]; rfl
  have h2 : (pre ++ segBytes m p ++ suf).getD (pre.length + 2) 0 = (p.length + 2) / 256 := by
    rw [hassoc, getD_append_offset]; rfl
  have h3 : (pre ++ segBytes m p ++ suf).getD (pre.length + 2 + 1) 0 = (p.length + 2) % 256 := by
    rw [show pre.length + 2 + 1 = pre.length + 3 by omega, hassoc, getD_append_offset]; rfl
  have hread : read_be_len (pre ++ segBytes m p ++ suf) (pre.length + 2) = p.length + 2 := by
    unfold read_be_len
    rw [h2, h3]
    omega
  have hcond : pre.length + 4 ≤ (pre ++ segBytes m p ++ suf).length ∧
      (pre ++ segBytes m p ++ suf).getD pre.length 0 = 0xFF := by
    refine ⟨by omega, ?_⟩
    have := h0
    rwa [Nat.add_zero] at this
  conv_lhs => rw [find_insert_pos]
  rw [dif_pos hcond]
  simp only [h1]
  rw [if_neg (by omega : ¬¬(0xE0 ≤ m ∧ m ≤ 0xEF)), if_neg (by omega : ¬(m = 0xDA)), hread,
    if_neg (by omega : ¬(p.length + 2 < 2))]
  rw [show pre.length + 2 + (p.length + 2) = pre.length + (4 + p.length) by omega]

theorem find_insert_pos_da (pre suf : List ℕ) (pos : ℕ) (hpos : pos = pre.length) :
    find_insert_pos (pre ++ 0xFF :: 0xDA :: suf) pos = pos := by
  subst hpos
  by_cases hcond : pre.length + 4 ≤ (pre ++ 0xFF :: 0xDA :: suf).length ∧
      (pre ++ 0xFF :: 0xDA :: suf).getD pre.length 0 = 0xFF
  · have h1 : (pre ++ 0xFF :: 0xDA :: suf).getD (pre.length + 1) 0 = 0xDA := by
      rw [getD_append_offset]
      rfl
    conv_lhs => rw [find_insert_pos]
    rw [dif_pos hcond]
    simp only [h1]
    rw [if_pos (by omega : ¬((0xE0 : ℕ) ≤ 0xDA ∧ (0xDA : ℕ) ≤ 0xEF))]
  · conv_lhs => rw [find_insert_pos]
    rw [dif_neg hcond]

theorem segsBytes_nil : segsBytes [] = [] := rfl

theorem segsBytes_cons (a : ℕ × List ℕ) (t : List (ℕ × List ℕ)) :
    segsBytes (a :: t) = segBytes a.1 a.2 ++ segsBytes t := by
  simp [segsBytes]

theorem segsBytes_append (l1 l2 : List (ℕ × List ℕ)) :
    segsBytes (l1 ++ l2) = segsBytes l1 ++ segsBytes l2 := by
  simp [segsBytes]

theorem remove_exif_scan_apps (apps : List (ℕ × List ℕ)) :
    ∀ (pre suf : List ℕ) (scan : ℕ), scan = pre.length →
      (∀ s ∈ apps, isAppSeg s) →
      remove_exif_scan (pre ++ segsBytes apps ++ suf) scan =
        remove_exif_scan (pre ++ segsBytes apps ++ suf) (scan + (segsBytes apps).length) := by
  induction apps with
  | nil =>
    intro pre suf scan hscan _
    simp [segsBytes]
  | cons a t ih =>
    intro pre suf scan hscan hall
    subst hscan
    have happ : isAppSeg a := hall a (List.mem_cons_self a t)
    obtain ⟨ha1, ha2, ha3⟩ := happ
    rw [segsBytes_cons]
    have hre : pre ++ (segBytes a.1 a.2 ++ segsBytes t) ++ suf =
        pre ++ segBytes a.1 a.2 ++ (segsBytes t ++ suf) := by
      simp [List.append_assoc]
    rw [hre]
    rw [remove_exif_scan_skip pre (segsBytes t ++ suf) a.2 a.1 pre.length rfl
      (by omega) ha3 (by omega)]
    have hre2 : pre ++ segBytes a.1 a.2 ++ (segsBytes t ++ suf) =
        (pre ++ segBytes a.1 a.2) ++ segsBytes t ++ suf := by
      simp [List.append_assoc]
    rw [hre2]
    have hlen' : pre.length + (4 + a.2.length) = (pre ++ segBytes a.1 a.2).length := by
      simp [segBytes]
      omega
    rw [hlen']
    rw [ih (pre ++ segBytes a.1 a.2) suf _ rfl (fun s hs' => hall s (List.mem_cons_of_mem a hs'))]
    congr 1
    simp [segBytes, segsBytes]
    omega

theorem find_insert_pos_apps (apps : List (ℕ × List ℕ)) :
    ∀ (pre suf : List ℕ) (pos : ℕ), pos = pre.length →
      (∀ s ∈ apps, isAppSeg s) →
      find_insert_pos (pre ++ segsBytes apps ++ suf) pos =
        find_insert_pos (pre ++ segsBytes apps ++ suf) (pos + (segsBytes apps).length) := by
  induction apps with
  | nil =>
    intro pre suf pos hpos _
    simp [segsBytes]
  | cons a t ih =>
    intro pre suf pos hpos hall
    subst hpos
    have happ : isAppSeg a := hall a (List.mem_cons_self a t)
    obtain ⟨ha1, ha2, ha3⟩ := happ
    rw [segsBytes_cons]
    have hre : pre ++ (segBytes a.1 a.2 ++ segsBytes t) ++ suf =
        pre ++ segBytes a.1 a.2 ++ (segsBytes t ++ suf) := by
      simp [List.append_assoc]
    rw [hre]
    rw [find_insert_pos_skip pre (segsBytes t ++ suf) a.2 a.1 pre.length rfl ha1 ha2]
    have hre2 : pre ++ segBytes a.1 a.2 ++ (segsBytes t ++ suf) =
        (pre ++ segBytes a.1 a.2) ++ segsBytes t ++ suf := by
      simp [List.append_assoc]
    rw [hre2]
    have hlen' : pre.length + (4 + a.2.length) = (pre ++ segBytes a.1 a.2).length := by
      simp [segBytes]
      omega
    rw [hlen']
    rw [ih (pre ++ segBytes a.1 a.2) suf _ rfl (fun s hs' => hall s (List.mem_cons_of_mem a hs'))]
    congr 1
    simp [segBytes, segsBytes]
    omega

theorem insert_no_e1 (apps : List (ℕ × List ℕ)) (exif rest : List ℕ)
    (happs : ∀ s ∈ apps, isAppSeg s) (hexif : exif.length + 2 ≤ 65535) :
    insert_exif_segment ([0xFF, 0xD8] ++ segsBytes apps ++ 0xFF :: 0xDA :: rest) exif =
      [0xFF, 0xD8] ++ segsBytes apps ++ segBytes 0xE1 exif ++ 0xFF :: 0xDA :: rest := by
  have hg1 : ¬(([0xFF, 0xD8] ++ segsBytes apps ++ 0xFF :: 0xDA :: rest).length < 2 ∨
      ([0xFF, 0xD8] ++ segsBytes apps ++ 0xFF :: 0xDA :: rest).getD 0 0 ≠ 0xFF ∨
      ([0xFF, 0xD8] ++ segsBytes apps ++ 0xFF :: 0xDA :: rest).getD 1 0 ≠ 0xD8) := by
    push_neg
    refine ⟨?_, rfl, rfl⟩
    simp
  simp only [insert_exif_segment]
  rw [if_neg hg1, if_neg (by omega : ¬(65535 < exif.length + 2))]
  have hrm : remove_exif_scan ([0xFF, 0xD8] ++ segsBytes apps ++ 0xFF :: 0xDA :: rest) 2 =
      [0xFF, 0xD8] ++ segsBytes apps ++ 0xFF :: 0xDA :: rest := by
    rw [remove_exif_scan_apps apps [0xFF, 0xD8] (0xFF :: 0xDA :: rest) 2 rfl happs]
    exact remove_exif_scan_da ([0xFF, 0xD8] ++ segsBytes apps) rest
      (2 + (segsBytes apps).length) (by simp; omega)
  have hpos : find_insert_pos ([0xFF, 0xD8] ++ segsBytes apps ++ 0xFF :: 0xDA :: rest) 2 =
      2 + (segsBytes apps).length := by
    rw [find_insert_pos_apps apps [0xFF, 0xD8] (0xFF :: 0xDA :: rest) 2 rfl happs]
    exact find_insert_pos_da ([0xFF, 0xD8] ++ segsBytes apps) rest
      (2 + (segsBytes apps).length) (by simp; omega)
  rw [hrm, hpos]
  have hlen2 : 2 + (segsBytes apps).length = ([0xFF, 0xD8] ++ segsBytes apps).length := by
    simp
    omega
  rw [hlen2, List.take_left, List.drop_left]
  simp [segBytes, List.append_assoc]

theorem insert_with_e1 (apps1 apps2 : List (ℕ × List ℕ)) (q exif rest : List ℕ)
    (h1 : ∀ s ∈ apps1, isAppSeg s) (h2 : ∀ s ∈ apps2, isAppSeg s)
    (hexif : exif.length + 2 ≤ 65535) :
    insert_exif_segment
        ([0xFF, 0xD8] ++ segsBytes apps1 ++ segBytes 0xE1 q ++ segsBytes apps2 ++
          0xFF :: 0xDA :: rest) exif =
      [0xFF, 0xD8] ++ segsBytes apps1 ++ segsBytes apps2 ++ segBytes 0xE1 exif ++
        0xFF :: 0xDA :: rest := by
  set jpeg := [0xFF, 0xD8] ++ segsBytes apps1 ++ segBytes 0xE1 q ++ segsBytes apps2 ++
    0xFF :: 0xDA :: rest with hjpeg
  have hg1 : ¬(jpeg.length < 2 ∨ jpeg.getD 0 0 ≠ 0xFF ∨ jpeg.getD 1 0 ≠ 0xD8) := by
    rw [hjpeg]
    push_neg
    refine ⟨?_, rfl, rfl⟩
    simp
  simp only [insert_exif_segment]
  rw [if_neg hg1, if_neg (by omega : ¬(65535 < exif.length + 2))]
  have hrm : remove_exif_scan jpeg 2 =
      ([0xFF, 0xD8] ++ segsBytes apps1) ++ (segsBytes apps2 ++ 0xFF :: 0xDA :: rest) := by
    have hform : jpeg = [0xFF, 0xD8] ++ segsBytes apps1 ++
        (segBytes 0xE1 q ++ (segsBytes apps2 ++ 0xFF :: 0xDA :: rest)) := by
      rw [hjpeg]
      simp [List.append_assoc]
    rw [hform]
    rw [remove_exif_scan_apps apps1 [0xFF, 0xD8]
      (segBytes 0xE1 q ++ (segsBytes apps2 ++ 0xFF :: 0xDA :: rest)) 2 rfl h1]
    have hform2 : [0xFF, 0xD8] ++ segsBytes apps1 ++
        (segBytes 0xE1 q ++ (segsBytes apps2 ++ 0xFF :: 0xDA :: rest)) =
        ([0xFF, 0xD8] ++ segsBytes apps1) ++ segBytes 0xE1 q ++
          (segsBytes apps2 ++ 0xFF :: 0xDA :: rest) := by
      simp [List.append_assoc]
    rw [hform2]
    exact remove_exif_scan_e1 ([0xFF, 0xD8] ++ segsBytes apps1)
      (segsBytes apps2 ++ 0xFF :: 0xDA :: rest) q (2 + (segsBytes apps1).length) (by simp; omega)
  rw [hrm]
  have hcleaned : ([0xFF, 0xD8] ++ segsBytes apps1) ++ (segsBytes apps2 ++ 0xFF :: 0xDA :: rest) =
      [0xFF, 0xD8] ++ segsBytes (apps1 ++ apps2) ++ 0xFF :: 0xDA :: rest := by
    rw [segsBytes_append]
    simp [List.append_assoc]
  rw [hcleaned]
  have h12 : ∀ s ∈ apps1 ++ apps2, isAppSeg s := by
    intro s hs
    rcases List.mem_append.1 hs with h | h
    · exact h1 s h
    · exact h2 s h
  have hpos : find_insert_pos ([0xFF, 0xD8] ++ segsBytes (apps1 ++ apps2) ++
      0xFF :: 0xDA :: rest) 2 = 2 + (segsBytes (apps1 ++ apps2)).length := by
    rw [find_insert_pos_apps (apps1 ++ apps2) [0xFF, 0xD8] (0xFF :: 0xDA :: rest) 2 rfl h12]
    exact find_insert_pos_da ([0xFF, 0xD8] ++ segsBytes (apps1 ++ apps2)) rest
      (2 + (segsBytes (apps1 ++ apps2)).length) (by simp; omega)
  rw [hpos]
  have hlen2 : 2 + (segsBytes (apps1 ++ apps2)).length =
      ([0xFF, 0xD8] ++ segsBytes (apps1 ++ apps2)).length := by
    simp
    omega
  rw [hlen2, List.take_left, List.drop_left]
  rw [segsBytes_append]
  simp [segBytes, List.append_assoc]

/-- Claim C6: on a buffer beginning with `FF D8`, `insert_exif_segment` first
removes an existing marker-`0xE1` segment found before the `0xDA` scan marker
by excising exactly its declared length, then inserts the segment
`FF E1 (payload length + 2 as big-endian u16) payload` immediately after the
leading `0xE0`–`0xEF` application segments and before the `0xDA` marker; an
oversized payload (length + 2 > 65535) is dropped with the buffer completely
unchanged. -/
theorem insert_exif_segment_spec
    (apps apps1 apps2 : List (ℕ × List ℕ)) (q exif rest1 rest2 : List ℕ)
    (happs : ∀ s ∈ apps, isAppSeg s)
    (h1 : ∀ s ∈ apps1, isAppSeg s) (h2 : ∀ s ∈ apps2, isAppSeg s)
    (hexif : exif.length + 2 ≤ 65535) :
    (∀ (j e : List ℕ), 65535 < e.length + 2 → insert_exif_segment j e = j) ∧
    insert_exif_segment ([0xFF, 0xD8] ++ segsBytes apps ++ 0xFF :: 0xDA :: rest1) exif =
      [0xFF, 0xD8] ++ segsBytes apps ++ segBytes 0xE1 exif ++ 0xFF :: 0xDA :: rest1 ∧
    insert_exif_segment
        ([0xFF, 0xD8] ++ segsBytes apps1 ++ segBytes 0xE1 q ++ segsBytes apps2 ++
          0xFF :: 0xDA :: rest2) exif =
      [0xFF, 0xD8] ++ segsBytes apps1 ++ segsBytes apps2 ++ segBytes 0xE1 exif ++
        0xFF :: 0xDA :: rest2 := by
  refine ⟨?_, insert_no_e1 apps exif rest1 happs hexif,
    insert_with_e1 apps1 apps2 q exif rest2 h1 h2 hexif⟩
  intro j e he
  unfold insert_exif_segment
  by_cases hc : j.length < 2 ∨ j.getD 0 0 ≠ 0xFF ∨ j.getD 1 0 ≠ 0xD8
  · rw [if_pos hc]
  · rw [if_neg hc, if_pos he]

/-- Witness for C6: a synthetic JPEG with one non-EXIF APP0 segment, and one
with an APP0, an old APP1 and an APP6 segment. -/
theorem insert_exif_segment_spec_witness :
    (∀ s ∈ [((0xE0 : ℕ), [(1 : ℕ)])], isAppSeg s) ∧
    (∀ s ∈ ([] : List (ℕ × List ℕ)), isAppSeg s) ∧
    (∀ s ∈ [((0xE6 : ℕ), ([] : List ℕ))], isAppSeg s) ∧
    ([(7 : ℕ)].length + 2 ≤ 65535) ∧
    ((∀ (j e : List ℕ), 65535 < e.length + 2 → insert_exif_segment j e = j) ∧
     insert_exif_segment
         ([0xFF, 0xD8] ++ segsBytes [(0xE0, [1])] ++ 0xFF :: 0xDA :: [0, 1]) [7] =
       [0xFF, 0xD8] ++ segsBytes [(0xE0, [1])] ++ segBytes 0xE1 [7] ++
         0xFF :: 0xDA :: [0, 1] ∧
     insert_exif_segment
         ([0xFF, 0xD8] ++ segsBytes [] ++ segBytes 0xE1 [2, 2] ++
           segsBytes [(0xE6, [])] ++ 0xFF :: 0xDA :: [0, 1]) [7] =
       [0xFF, 0xD8] ++ segsBytes [] ++ segsBytes [(0xE6, [])] ++ segBytes 0xE1 [7] ++
         0xFF :: 0xDA :: [0, 1]) :=
  ⟨by decide, by decide, by decide, by decide,
    insert_exif_segment_spec [(0xE0, [1])] [] [(0xE6, [])] [2, 2] [7] [0, 1] [0, 1]
      (by decide) (by decide) (by decide) (by decide)⟩


/-! ### Lemmas for the original cache store (C5) -/

theorem natDecimalCore_congr :
    ∀ (f1 : ℕ), ∀ f2 n : ℕ, n < f1 → n < f2 → natDecimalCore f1 n = natDecimalCore f2 n := by
  intro f1
  induction f1 with
  | zero => intro f2 n h1 _; omega
  | succ g1 ih =>
    intro f2 n h1 h2
    cases f2 with
    | zero => omega
    | succ g2 =>
      simp only [natDecimalCore]
      by_cases hn : n < 10
      · rw [if_pos hn, if_pos hn]
      · rw [if_neg hn, if_neg hn]
        have hdiv : n / 10 < n := Nat.div_lt_self (by omega) (by omega)
        rw [ih g2 (n / 10) (by omega) (by omega)]

theorem natDecimal_eq (n : ℕ) :
    natDecimal n = if n < 10 then [Nat.digitChar n]
      else natDecimal (n / 10) ++ [Nat.digitChar (n % 10)] := by
  unfold natDecimal
  conv_lhs => rw [natDecimalCore]
  by_cases hn : n < 10
  · rw [if_pos hn, if_pos hn]
  · rw [if_neg hn, if_neg hn]
    have hdiv : n / 10 < n := Nat.div_lt_self (by omega) (by omega)
    rw [natDecimalCore_congr n (n / 10 + 1) (n / 10) (by omega) (by omega)]

theorem natDecimal_ne_nil (n : ℕ) : natDecimal n ≠ [] := by
  rw [natDecimal_eq]
  split_ifs with h
  · simp
  · simp

theorem digitChar_inj_lt : ∀ a b : ℕ, a < 10 → b < 10 →
    Nat.digitChar a = Nat.digitChar b → a = b := by
  intro a b ha hb h
  interval_cases a <;> interval_cases b <;> revert h <;> decide

theorem natDecimal_eq_lt (n : ℕ) (h : n < 10) : natDecimal n = [Nat.digitChar n] := by
  rw [natDecimal_eq, if_pos h]

theorem natDecimal_eq_ge (n : ℕ) (h : ¬n < 10) :
    natDecimal n = natDecimal (n / 10) ++ [Nat.digitChar (n % 10)] := by
  rw [natDecimal_eq, if_neg h]

theorem natDecimal_inj : ∀ a b : ℕ, natDecimal a = natDecimal b → a = b := by
  intro a
  induction a using Nat.strong_induction_on with
  | _ a ih =>
    intro b h
    by_cases ha : a < 10 <;> by_cases hb : b < 10
    · rw [natDecimal_eq_lt a ha, natDecimal_eq_lt b hb] at h
      simp only [List.cons.injEq, and_true] at h
      exact digitChar_inj_lt a b ha hb h
    · rw [natDecimal_eq_lt a ha, natDecimal_eq_ge b hb] at h
      have hlen := congrArg List.length h
      simp only [List.length_singleton, List.length_append] at hlen
      have := natDecimal_ne_nil (b / 10)
      have hpos : 0 < (natDecimal (b / 10)).length := List.length_pos.2 this
      omega
    · rw [natDecimal_eq_ge a ha, natDecimal_eq_lt b hb] at h
      have hlen := congrArg List.length h
      simp only [List.length_singleton, List.length_append] at hlen
      have := natDecimal_ne_nil (a / 10)
      have hpos : 0 < (natDecimal (a / 10)).length := List.length_pos.2 this
      omega
    · rw [natDecimal_eq_ge a ha, natDecimal_eq_ge b hb] at h
      obtain ⟨h1, h2⟩ := List.append_inj' h (by simp)
      simp only [List.cons.injEq, and_true] at h2
      have hd : a % 10 = b % 10 :=
        digitChar_inj_lt _ _ (Nat.mod_lt a (by omega)) (Nat.mod_lt b (by omega)) h2
      have hq : a / 10 = b / 10 := ih (a / 10) (Nat.div_lt_self (by omega) (by omega)) (b / 10) h1
      omega

theorem numbered_filename_inj (base : List Char) :
    ∀ c1 c2 : ℕ, numbered_filename base c1 = numbered_filename base c2 → c1 = c2 := by
  intro c1 c2 h
  unfold numbered_filename at h
  cases hext : (split_stem_ext base).2 with
  | none =>
    simp only [hext] at h
    have h2 := List.append_cancel_left h
    simp only [List.cons.injEq, true_and] at h2
    exact natDecimal_inj c1 c2 h2
  | some ext =>
    simp only [hext] at h
    by_cases hnil : ext = []
    · rw [if_pos hnil, if_pos hnil] at h
      have h2 := List.append_cancel_left h
      simp only [List.cons.injEq, true_and] at h2
      exact natDecimal_inj c1 c2 h2
    · rw [if_neg hnil, if_neg hnil] at h
      have h2 := List.append_cancel_right h
      have h3 := List.append_cancel_left h2
      simp only [List.cons.injEq, true_and] at h3
      exact natDecimal_inj c1 c2 h3

theorem read_mem_keys {fs : CacheFS} {n : List Char} {c : List ℕ}
    (h : fs.read n = some c) : n ∈ fs.files.map Prod.fst := by
  unfold CacheFS.read at h
  obtain ⟨p, hp1, _⟩ := Option.map_eq_some'.1 h
  have hmem := List.mem_of_find?_eq_some hp1
  have hpn : p.1 = n := by
    have := List.find?_some hp1
    exact of_decide_eq_true this
  exact List.mem_map.2 ⟨p, hmem, hpn⟩

theorem probe_numbered_spec (fs : CacheFS) (base : List Char) (bytes : List ℕ) :
    ∀ (fuel c : ℕ),
      ((∀ j, c ≤ j → j < c + fuel →
          ∃ cont, fs.read (numbered_filename base j) = some cont ∧ cont ≠ bytes) ∧
        probe_numbered fs base bytes fuel c = none) ∨
      (∃ k, k < fuel ∧
        (∀ j, c ≤ j → j < c + k →
          ∃ cont, fs.read (numbered_filename base j) = some cont ∧ cont ≠ bytes) ∧
        ((fs.read (numbered_filename base (c + k)) = some bytes ∧
          probe_numbered fs base bytes fuel c = some (fs, numbered_filename base (c + k))) ∨
         (fs.read (numbered_filename base (c + k)) = none ∧
          probe_numbered fs base bytes fuel c =
            some (fs.write (numbered_filename base (c + k)) bytes,
              numbered_filename base (c + k))))) := by
  intro fuel
  induction fuel with
  | zero =>
    intro c
    left
    exact ⟨fun j h1 h2 => absurd h2 (by omega), rfl⟩
  | succ f ih =>
    intro c
    cases hread : fs.read (numbered_filename base c) with
    | some content =>
      by_cases hcb : content = bytes
      · right
        refine ⟨0, by omega, fun j h1 h2 => absurd h2 (by omega), Or.inl ⟨?_, ?_⟩⟩
        · rw [Nat.add_zero, hread, hcb]
        · simp only [probe_numbered, hread, if_pos hcb, Nat.add_zero]
      · rcases ih (c + 1) with ⟨hall, hnone⟩ | ⟨k, hk, hpref, hres⟩
        · left
          constructor
          · intro j h1 h2
            rcases Nat.eq_or_lt_of_le h1 with rfl | hgt
            · exact ⟨content, hread, hcb⟩
            · exact hall j (by omega) (by omega)
          · simp only [probe_numbered, hread, if_neg hcb]
            exact hnone
        · right
          refine ⟨k + 1, by omega, ?_, ?_⟩
          · intro j h1 h2
            rcases Nat.eq_or_lt_of_le h1 with rfl | hgt
            · exact ⟨content, hread, hcb⟩
            · exact hpref j (by omega) (by omega)
          · rw [show c + (k + 1) = c + 1 + k by omega]
            rcases hres with ⟨ha, hb⟩ | ⟨ha, hb⟩
            · left
              refine ⟨ha, ?_⟩
              simp only [probe_numbered, hread, if_neg hcb]
              exact hb
            · right
              refine ⟨ha, ?_⟩
              simp only [probe_numbered, hread, if_neg hcb]
              exact hb
    | none =>
      right
      refine ⟨0, by omega, fun j h1 h2 => absurd h2 (by omega), Or.inr ⟨?_, ?_⟩⟩
      · rw [Nat.add_zero]
        exact hread
      · simp only [probe_numbered, hread, Nat.add_zero]

theorem probe_numbered_total (fs : CacheFS) (base : List Char) (bytes : List ℕ) :
    probe_numbered fs base bytes (fs.files.length + 1) 2 ≠ none := by
  intro hnone
  rcases probe_numbered_spec fs base bytes (fs.files.length + 1) 2 with
    ⟨hall, _⟩ | ⟨k, _, _, hres⟩
  · have hinj : Function.Injective (fun i : ℕ => numbered_filename base (2 + i)) := by
      intro i1 i2 hEq
      have := numbered_filename_inj base (2 + i1) (2 + i2) hEq
      omega
    set names := (List.range (fs.files.length + 1)).map
      (fun i => numbered_filename base (2 + i)) with hnames
    have hnodup : names.Nodup := (List.nodup_range _).map hinj
    have hsub : names ⊆ fs.files.map Prod.fst := by
      intro n hn
      rw [hnames] at hn
      obtain ⟨i, hi, rfl⟩ := List.mem_map.1 hn
      rw [List.mem_range] at hi
      obtain ⟨cont, hc, _⟩ := hall (2 + i) (by omega) (by omega)
      exact read_mem_keys hc
    have hsubF : names.toFinset ⊆ (fs.files.map Prod.fst).toFinset := by
      intro x hx
      rw [List.mem_toFinset] at hx ⊢
      exact hsub hx
    have h1 : names.toFinset.card = fs.files.length + 1 := by
      rw [List.toFinset_card_of_nodup hnodup, hnames, List.length_map, List.length_range]
    have h2 : (fs.files.map Prod.fst).toFinset.card ≤ fs.files.length := by
      calc (fs.files.map Prod.fst).toFinset.card ≤ (fs.files.map Prod.fst).length :=
            List.toFinset_card_le _
        _ = fs.files.length := List.length_map _ _
    have := Finset.card_le_card hsubF
    omega
  · rcases hres with ⟨_, hb⟩ | ⟨_, hb⟩ <;> rw [hnone] at hb <;> cases hb

theorem ensure_general (fs : CacheFS) (base : List Char) (bytes : List ℕ) :
    ∃ i : ℕ,
      (∀ j < i, ∃ cont, fs.read (cacheCandidate base j) = some cont ∧ cont ≠ bytes) ∧
      ((fs.read (cacheCandidate base i) = some bytes ∧
        ensure_original_cached fs none base bytes = some (fs, cacheCandidate base i)) ∨
       (fs.read (cacheCandidate base i) = none ∧
        ensure_original_cached fs none base bytes =
          some (fs.write (cacheCandidate base i) bytes, cacheCandidate base i))) := by
  cases hread : fs.read base with
  | none =>
    refine ⟨0, fun j hj => absurd hj (by omega), Or.inr ⟨hread, ?_⟩⟩
    simp only [ensure_original_cached, hread, cacheCandidate, if_pos rfl, if_true]
  | some content =>
    by_cases hcb : content = bytes
    · refine ⟨0, fun j hj => absurd hj (by omega), Or.inl ⟨?_, ?_⟩⟩
      · rw [show cacheCandidate base 0 = base from rfl, hread, hcb]
      · simp only [ensure_original_cached, hread, if_pos hcb, cacheCandidate, if_pos rfl,
          if_true]
    · rcases probe_numbered_spec fs base bytes (fs.files.length + 1) 2 with
        ⟨_, hnone⟩ | ⟨k, _, hpref, hres⟩
      · exact absurd hnone (probe_numbered_total fs base bytes)
      · refine ⟨k + 1, ?_, ?_⟩
        · intro j hj
          rcases Nat.eq_zero_or_pos j with rfl | hpos
          · exact ⟨content, by rw [show cacheCandidate base 0 = base from rfl]; exact hread, hcb⟩
          · have hcand : cacheCandidate base j = numbered_filename base (j + 1) := by
              unfold cacheCandidate
              rw [if_neg (by omega)]
            rw [hcand]
            exact hpref (j + 1) (by omega) (by omega)
        · have hcand : cacheCandidate base (k + 1) = numbered_filename base (2 + k) := by
            unfold cacheCandidate
            rw [if_neg (by omega), show k + 1 + 1 = 2 + k by omega]
          rw [hcand]
          have hens : ensure_original_cached fs none base bytes =
              probe_numbered fs base bytes (fs.files.length + 1) 2 := by
            simp only [ensure_original_cached, hread, if_neg hcb]
          rcases hres with ⟨ha, hb⟩ | ⟨ha, hb⟩
          · exact Or.inl ⟨ha, by rw [hens]; exact hb⟩
          · exact Or.inr ⟨ha, by rw [hens]; exact hb⟩

theorem ensure_scenario (b1 b2 : List ℕ) (hb : b1 ≠ b2) :
    ensure_original_cached ⟨[]⟩ none ("name.ext".data) b1 =
      some (⟨[("name.ext".data, b1)]⟩, "name.ext".data) ∧
    ensure_original_cached ⟨[("name.ext".data, b1)]⟩ none ("name.ext".data) b2 =
      some (⟨[("name.ext".data, b1), ("name-2.ext".data, b2)]⟩, "name-2.ext".data) ∧
    ensure_original_cached ⟨[("name.ext".data, b1), ("name-2.ext".data, b2)]⟩ none
        ("name.ext".data) b1 =
      some (⟨[("name.ext".data, b1), ("name-2.ext".data, b2)]⟩, "name.ext".data) ∧
    ensure_original_cached ⟨[("name.ext".data, b1), ("name-2.ext".data, b2)]⟩ none
        ("name.ext".data) b2 =
      some (⟨[("name.ext".data, b1), ("name-2.ext".data, b2)]⟩, "name-2.ext".data) ∧
    (CacheFS.mk [("name.ext".data, b1), ("name-2.ext".data, b2)]).read
      ("name-3.ext".data) = none := by
  refine ⟨rfl, ?_, ?_, ?_, rfl⟩
  · have h1 : CacheFS.read ⟨[("name.ext".data, b1)]⟩ ("name.ext".data) = some b1 := rfl
    have h2 : CacheFS.read ⟨[("name.ext".data, b1)]⟩
        (numbered_filename ("name.ext".data) 2) = none := rfl
    simp only [ensure_original_cached, h1, if_neg hb]
    simp only [List.length_cons, List.length_nil, probe_numbered, h2]
    rfl
  · have h1 : CacheFS.read ⟨[("name.ext".data, b1), ("name-2.ext".data, b2)]⟩
        ("name.ext".data) = some b1 := rfl
    simp only [ensure_original_cached, h1, if_pos rfl]
    rfl
  · have h1 : CacheFS.read ⟨[("name.ext".data, b1), ("name-2.ext".data, b2)]⟩
        ("name.ext".data) = some b1 := rfl
    have h2 : CacheFS.read ⟨[("name.ext".data, b1), ("name-2.ext".data, b2)]⟩
        (numbered_filename ("name.ext".data) 2) = some b2 := rfl
    simp only [ensure_original_cached, h1, if_neg hb]
    simp only [List.length_cons, List.length_nil, probe_numbered, h2, if_pos rfl]
    rfl

/-- Claim C5: `ensure_original_cached` probes the preferred name and then the
numbered-suffix names `name-2.ext`, `name-3.ext`, ... in increasing order
until it finds byte-identical content (returning that path without writing) or
a free name (where it writes the bytes); caching two distinct contents under
the same preferred name in sequence yields `name.ext` and `name-2.ext`, and
re-caching either content returns the existing path without creating
`name-3.ext`. -/
theorem ensure_original_cached_spec (b1 b2 : List ℕ) (hb : b1 ≠ b2) :
    (∀ (fs : CacheFS) (base : List Char) (bytes : List ℕ),
      ∃ i : ℕ,
        (∀ j < i, ∃ cont, fs.read (cacheCandidate base j) = some cont ∧ cont ≠ bytes) ∧
        ((fs.read (cacheCandidate base i) = some bytes ∧
          ensure_original_cached fs none base bytes = some (fs, cacheCandidate base i)) ∨
         (fs.read (cacheCandidate base i) = none ∧
          ensure_original_cached fs none base bytes =
            some (fs.write (cacheCandidate base i) bytes, cacheCandidate base i)))) ∧
    (ensure_original_cached ⟨[]⟩ none ("name.ext".data) b1 =
       some (⟨[("name.ext".data, b1)]⟩, "name.ext".data) ∧
     ensure_original_cached ⟨[("name.ext".data, b1)]⟩ none ("name.ext".data) b2 =
       some (⟨[("name.ext".data, b1), ("name-2.ext".data, b2)]⟩, "name-2.ext".data) ∧
     ensure_original_cached ⟨[("name.ext".data, b1), ("name-2.ext".data, b2)]⟩ none
         ("name.ext".data) b1 =
       some (⟨[("name.ext".data, b1), ("name-2.ext".data, b2)]⟩, "name.ext".data) ∧
     ensure_original_cached ⟨[("name.ext".data, b1), ("name-2.ext".data, b2)]⟩ none
         ("name.ext".data) b2 =
       some (⟨[("name.ext".data, b1), ("name-2.ext".data, b2)]⟩, "name-2.ext".data) ∧
     (CacheFS.mk [("name.ext".data, b1), ("name-2.ext".data, b2)]).read
       ("name-3.ext".data) = none) :=
  ⟨fun fs base bytes => ensure_general fs base bytes, ensure_scenario b1 b2 hb⟩

/-- Witness for C5 at the byte contents `[0]` and `[1]`. -/
theorem ensure_original_cached_spec_witness :
    ([0] ≠ ([1] : List ℕ)) ∧
    ((∀ (fs : CacheFS) (base : List Char) (bytes : List ℕ),
      ∃ i : ℕ,
        (∀ j < i, ∃ cont, fs.read (cacheCandidate base j) = some cont ∧ cont ≠ bytes) ∧
        ((fs.read (cacheCandidate base i) = some bytes ∧
          ensure_original_cached fs none base bytes = some (fs, cacheCandidate base i)) ∨
         (fs.read (cacheCandidate base i) = none ∧
          ensure_original_cached fs none base bytes =
            some (fs.write (cacheCandidate base i) bytes, cacheCandidate base i)))) ∧
    (ensure_original_cached ⟨[]⟩ none ("name.ext".data) [0] =
       some (⟨[("name.ext".data, [0])]⟩, "name.ext".data) ∧
     ensure_original_cached ⟨[("name.ext".data, [0])]⟩ none ("name.ext".data) [1] =
       some (⟨[("name.ext".data, [0]), ("name-2.ext".data, [1])]⟩, "name-2.ext".data) ∧
     ensure_original_cached ⟨[("name.ext".data, [0]), ("name-2.ext".data, [1])]⟩ none
         ("name.ext".data) [0] =
       some (⟨[("name.ext".data, [0]), ("name-2.ext".data, [1])]⟩, "name.ext".data) ∧
     ensure_original_cached ⟨[("name.ext".data, [0]), ("name-2.ext".data, [1])]⟩ none
         ("name.ext".data) [1] =
       some (⟨[("name.ext".data, [0]), ("name-2.ext".data, [1])]⟩, "name-2.ext".data) ∧
     (CacheFS.mk [("name.ext".data, [0]), ("name-2.ext".data, [1])]).read
       ("name-3.ext".data) = none)) :=
  ⟨by decide, ensure_original_cached_spec [0] [1] (by decide)⟩


end Dllup
